import Mathlib

/-!
Verification of the deadline-monotonic scheduling simulator in
`src/ece_455_final.py`.

Modeling conventions:
* Python floats carrying times/periods/deadlines are modeled as exact
  rationals (`ℚ`); Python float arithmetic is exact for the dyadic and
  integer values appearing in the concrete statements below.
* `fractions.Fraction(x).limit_denominator(1000)` (used by `gcd`,
  lines 17-18) is modeled by `limitDen`, a direct transcription of
  CPython's `Fraction.limit_denominator` (the continued-fraction best
  approximation with bounded denominator), specialized to nonnegative
  inputs, which is all the program can ever feed it (periods are
  positive and folded hyperperiods stay nonnegative).
* A Python `ZeroDivisionError` (possible in `lcm`, line 26, when `gcd`
  returns `0.0`) is modeled by the explicit result `exn`;
  non-termination of a `while` loop is modeled by the result `div`
  (the fuel supplied to each loop is proven sufficient whenever the
  Python loop terminates).
* Mutable job dicts are modeled by a list of `Job` records indexed by
  position; the `running_job` reference is the index of the job it
  points at (distinct live job dicts always differ in value, so
  Python's `!=` on them agrees with index inequality).
* The per-task mutable counters `task.preemption_count` are modeled by
  the `counts` list of the simulation state (indexed in task order),
  written back onto the returned task list when the call returns.
-/

namespace DM

set_option maxRecDepth 4000

/-- The numeric tolerance `1e-9` used by every comparison in the
simulation loop of `simulate_dm_scheduling`. -/
def eps : ℚ := 1 / 1000000000

/-- `Task.__init__` (lines 4-10): execution time, period, relative
deadline, static id, and the mutable per-task preemption counter. -/
structure Task where
  execution_time : ℚ
  period : ℚ
  deadline : ℚ
  task_id : ℕ
  preemption_count : ℕ
deriving DecidableEq

/-- The loop of CPython's `Fraction.limit_denominator`: continued
fraction expansion of `n/d`, stopped as soon as the next convergent's
denominator `q2` exceeds `maxD`.  `fuel` dominates the iteration count
(`d` strictly decreases, as in Euclid's algorithm); the `d = 0` exit is
unreachable when the caller's denominator exceeds `maxD`. -/
def ldLoop : ℕ → ℕ → ℕ → ℕ → ℕ → ℕ → ℕ → ℕ → ℕ × ℕ × ℕ × ℕ
  | 0, p0, q0, p1, q1, _, _, _ => (p0, q0, p1, q1)
  | fuel + 1, p0, q0, p1, q1, n, d, maxD =>
    if d = 0 then (p0, q0, p1, q1)
    else
      let a := n / d
      let q2 := q0 + a * q1
      if maxD < q2 then (p0, q0, p1, q1)
      else ldLoop fuel p1 q1 (p0 + a * p1) q2 d (n - a * d) maxD

/-- CPython's `Fraction.limit_denominator(maxD)` on a nonnegative
rational: the closest fraction with denominator at most `maxD`.
Returns the input unchanged when its denominator is already small
enough, otherwise picks the better of the two candidate bounds built
from the truncated continued fraction. -/
def limitDen (q : ℚ) (maxD : ℕ) : ℚ :=
  if q.den ≤ maxD then q
  else
    let t := ldLoop (q.den + 1) 0 1 1 0 q.num.toNat q.den maxD
    let p0 := t.1
    let q0 := t.2.1
    let p1 := t.2.2.1
    let q1 := t.2.2.2
    let k := (maxD - q0) / q1
    let bound1 : ℚ := ((p0 + k * p1 : ℕ) : ℚ) / ((q0 + k * q1 : ℕ) : ℚ)
    let bound2 : ℚ := (p1 : ℚ) / (q1 : ℚ)
    if |bound2 - q| ≤ |bound1 - q| then bound2 else bound1

/-- Python's `%` on `Fraction`s: `a % b = a - b * (a // b)` with floor
division. -/
def ratMod (a b : ℚ) : ℚ := a - b * ⌊a / b⌋

/-- The Euclid loop of `gcd` (lines 20-21): `while frac_b: frac_a,
frac_b = frac_b, frac_a % frac_b`.  `none` means the fuel ran out. -/
def gcdAux : ℕ → ℚ → ℚ → Option ℚ
  | 0, _, _ => none
  | fuel + 1, a, b => if b = 0 then some a else gcdAux fuel b (ratMod a b)

/-- `gcd` (lines 15-22): both arguments pass through
`Fraction(x).limit_denominator(1000)` and then Euclid's algorithm runs
on the resulting rationals.  The fuel bounds the numerator of the
second argument over the common denominator lattice; `gcd_isSome`
below proves it is always sufficient for nonnegative inputs. -/
def gcd (a b : ℚ) : Option ℚ :=
  let fa := limitDen a 1000
  let fb := limitDen b 1000
  gcdAux ((fb * ((fa.den * fb.den : ℕ) : ℚ)).num.toNat + 1) fa fb

/-- Failure modes of the Python code: `exn` is a raised exception
(`ZeroDivisionError`), `div` is non-termination. -/
inductive Err where
  | exn : Err
  | div : Err
deriving DecidableEq

/-- Outcome of `calculate_hyperperiod`. -/
inductive HRes where
  | ok : ℚ → HRes
  | err : Err → HRes
deriving DecidableEq

/-- `lcm` (lines 24-26): `abs(a * b) / gcd(a, b)`.  Dividing by the
float `0.0` raises `ZeroDivisionError` in Python, modeled as
`.err .exn`. -/
def lcm (a b : ℚ) : HRes :=
  match gcd a b with
  | none => .err .div
  | some g => if g = 0 then .err .exn else .ok (|a * b| / g)

/-- The fold of `calculate_hyperperiod` (lines 34-35):
`for task in tasks[1:]: hyperperiod = lcm(hyperperiod, task.period)`. -/
def hyperFold : ℚ → List Task → HRes
  | h, [] => .ok h
  | h, t :: ts =>
    match lcm h t.period with
    | .err e => .err e
    | .ok h2 => hyperFold h2 ts

/-- `calculate_hyperperiod` (lines 28-37): `0` for the empty task set,
otherwise the first period folded with `lcm` across the remaining
periods, left to right. -/
def calculate_hyperperiod : List Task → HRes
  | [] => .ok 0
  | t :: ts => hyperFold t.period ts

/-- A job dict (lines 77-84).  `taskIdx` is the position of the owning
task in the input task list (object identity of `job['task']`), `tid`
the owning task's `task_id` field. -/
structure Job where
  release_time : ℚ
  taskIdx : ℕ
  tid : ℕ
  absolute_deadline : ℚ
  remaining_time : ℚ
  job_id : ℕ
  completed : Bool
deriving DecidableEq

/-- Placeholder for out-of-range list reads; never produced by the
generator and never ready (it is marked completed). -/
def noJob : Job :=
  { release_time := 0, taskIdx := 0, tid := 0, absolute_deadline := 0,
    remaining_time := 0, job_id := 0, completed := true }

/-- The per-task release loop (lines 74-86): `while release_time <
hyperperiod`, emitting one job and stepping by the period.  `none`
means the fuel ran out, i.e. the Python loop does not terminate. -/
def genJobsAux (t : Task) (tIdx : ℕ) (hyper : ℚ) : ℕ → ℚ → ℕ → Option (List Job)
  | 0, _, _ => none
  | fuel + 1, release, jid =>
    if release < hyper then
      match genJobsAux t tIdx hyper fuel (release + t.period) (jid + 1) with
      | none => none
      | some rest =>
        some ({ release_time := release, taskIdx := tIdx, tid := t.task_id,
                absolute_deadline := release + t.deadline,
                remaining_time := t.execution_time,
                job_id := jid, completed := false } :: rest)
    else some []

/-- Fuel for `genJobsAux`; `genJobsTask_eq` proves it suffices whenever
the period is positive. -/
def genFuel (t : Task) (hyper : ℚ) : ℕ := (⌈hyper / t.period⌉).toNat + 1

/-- All job releases of one task, starting at time `0` with `job_id`
`0`. -/
def genJobsTask (t : Task) (tIdx : ℕ) (hyper : ℚ) : Option (List Job) :=
  genJobsAux t tIdx hyper (genFuel t hyper) 0 0

/-- The job-generation loop over all tasks (lines 72-86), tasks taken
in input order and jobs of one task kept consecutive (sorting happens
separately, as in the source). -/
def genJobsFrom : List Task → ℕ → ℚ → Option (List Job)
  | [], _, _ => some []
  | t :: ts, i, h =>
    match genJobsTask t i h with
    | none => none
    | some a =>
      match genJobsFrom ts (i + 1) h with
      | none => none
      | some b => some (a ++ b)

/-- Sort key of line 89: `(release_time, absolute_deadline)` ascending
(Python's stable `list.sort`). -/
def jobLe (a b : Job) : Bool :=
  decide (a.release_time < b.release_time ∨
    (a.release_time = b.release_time ∧ a.absolute_deadline ≤ b.absolute_deadline))

/-- A timeline event (lines 96-99): a release or a deadline of the job
at index `jobIdx` of the sorted job list. -/
structure Event where
  isDeadline : Bool
  time : ℚ
  jobIdx : ℕ
deriving DecidableEq

/-- Sort key of line 101: `(time, kind == deadline)` with
`False < True`, so releases sort before deadlines at equal times. -/
def evLe (a b : Event) : Bool :=
  decide (a.time < b.time ∨
    (a.time = b.time ∧ (a.isDeadline = true → b.isDeadline = true)))

/-- Event construction and sort (lines 96-101): one release and one
deadline event per job, then sorted. -/
def mkEvents (jobs : List Job) : List Event :=
  ((jobs.enum.map (fun p =>
      [Event.mk false p.2.release_time p.1,
       Event.mk true p.2.absolute_deadline p.1])).flatten).mergeSort evLe

/-- The mutable state of the simulation loop (lines 92-103): the job
list (jobs are mutated in place), the static event list, the index of
the next unprocessed event, the clock, the running-job reference, and
the per-task preemption counters (in task order). -/
structure SimState where
  hyper : ℚ
  jobs : List Job
  events : List Event
  eventIndex : ℕ
  currentTime : ℚ
  runningJob : Option ℕ
  counts : List ℕ
deriving DecidableEq

/-- The inner event-consumption loop (lines 107-115) on the suffix of
unprocessed events: events at or before `cur + eps` are consumed one by
one; a deadline event of an incomplete job with positive remaining
time returns a deadline miss (`none`); otherwise the number of
consumed events is returned. -/
def consumeList (jobs : List Job) (cur : ℚ) : List Event → Option ℕ
  | [] => some 0
  | e :: rest =>
    if e.time ≤ cur + eps then
      if e.isDeadline = true ∧ (jobs.getD e.jobIdx noJob).completed = false ∧
          eps < (jobs.getD e.jobIdx noJob).remaining_time then
        none
      else (consumeList jobs cur rest).map (· + 1)
    else some 0

/-- Readiness test of lines 120-122: released (within tolerance),
positive remaining time, not completed. -/
def isReadyB (j : Job) (cur : ℚ) : Bool :=
  decide (j.release_time ≤ cur + eps) && decide (eps < j.remaining_time) &&
    !j.completed

/-- Indices of the ready jobs, in job-list order (lines 118-123). -/
def readyIdxs (jobs : List Job) (cur : ℚ) : List ℕ :=
  (List.range jobs.length).filter (fun i => isReadyB (jobs.getD i noJob) cur)

/-- Priority order of line 135: `(absolute_deadline, task_id)`
ascending, on job indices. -/
def hpLe (jobs : List Job) (i j : ℕ) : Bool :=
  decide ((jobs.getD i noJob).absolute_deadline < (jobs.getD j noJob).absolute_deadline ∨
    ((jobs.getD i noJob).absolute_deadline = (jobs.getD j noJob).absolute_deadline ∧
      (jobs.getD i noJob).tid ≤ (jobs.getD j noJob).tid))

/-- Lines 134-136: sort the ready set by `(absolute_deadline,
task_id)` and take the first element; `none` iff no job is ready. -/
def selectHP (jobs : List Job) (cur : ℚ) : Option ℕ :=
  ((readyIdxs jobs cur).mergeSort (hpLe jobs)).head?

/-- Preemption accounting (lines 138-142): if there was a running job,
it differs from the newly selected one, and it still has positive
remaining time, the counter of its owning task is incremented. -/
def preemptCounts (jobs : List Job) (running : Option ℕ) (hp : ℕ)
    (counts : List ℕ) : List ℕ :=
  match running with
  | none => counts
  | some r =>
    if r ≠ hp ∧ eps < (jobs.getD r noJob).remaining_time then
      counts.set (jobs.getD r noJob).taskIdx
        (counts.getD (jobs.getD r noJob).taskIdx 0 + 1)
    else counts

/-- Next-event-time computation (lines 146-155): the minimum of the
next unprocessed event time and the running job's natural completion
instant; `none` models `float('inf')` surviving both `min`s. -/
def nextTimeOpt (s : SimState) (hp : ℕ) : Option ℚ :=
  match (s.events.get? s.eventIndex).map Event.time,
      (if eps < (s.jobs.getD hp noJob).remaining_time
        then some (s.currentTime + (s.jobs.getD hp noJob).remaining_time)
        else none) with
  | none, none => none
  | some a, none => some a
  | none, some b => some b
  | some a, some b => some (min a b)

/-- Execution (lines 164-172): run the selected job from the current
time to `nt`; on reaching zero remaining time (within tolerance) mark
it completed and clear the running-job slot. -/
def execPhase (s : SimState) (hp : ℕ) (nt : ℚ) : SimState :=
  if 0 < nt - s.currentTime ∧ eps < (s.jobs.getD hp noJob).remaining_time then
    if (s.jobs.getD hp noJob).remaining_time -
        min (nt - s.currentTime) ((s.jobs.getD hp noJob).remaining_time) ≤ eps then
      { s with
        jobs := s.jobs.set hp
          { s.jobs.getD hp noJob with
            remaining_time := (s.jobs.getD hp noJob).remaining_time -
              min (nt - s.currentTime) ((s.jobs.getD hp noJob).remaining_time),
            completed := true },
        runningJob := none }
    else
      { s with
        jobs := s.jobs.set hp
          { s.jobs.getD hp noJob with
            remaining_time := (s.jobs.getD hp noJob).remaining_time -
              min (nt - s.currentTime) ((s.jobs.getD hp noJob).remaining_time) } }
  else s

/-- Result of one iteration of the `while` loop: an early `return`
(deadline miss, carrying the task counters at that moment), a `break`
out of the loop, or continuation with a new state. -/
inductive StepRes where
  | ret : Bool × List ℕ → List ℕ → StepRes
  | brk : SimState → StepRes
  | cont : SimState → StepRes
deriving DecidableEq

/-- The idle branch (lines 126-132): no job is ready, so clear the
running slot and either jump to the next event time or leave the
loop. -/
def idlePhase (s1 : SimState) : StepRes :=
  match s1.events.get? s1.eventIndex with
  | some e => .cont { s1 with runningJob := none, currentTime := e.time }
  | none => .brk { s1 with runningJob := none }

/-- Lines 138-144: record the preemption (if any) and install the
newly selected job in the running slot. -/
def preState (s1 : SimState) (hp : ℕ) : SimState :=
  { s1 with counts := preemptCounts s1.jobs s1.runningJob hp s1.counts,
            runningJob := some hp }

/-- Lines 164-178: execute up to `nt`, advance the clock to `nt`, and
leave the loop if the hyperperiod is reached (line 177). -/
def afterExec (s2 : SimState) (hp : ℕ) (nt : ℚ) : StepRes :=
  if s2.hyper ≤ nt then .brk { execPhase s2 hp nt with currentTime := nt }
  else .cont { execPhase s2 hp nt with currentTime := nt }

/-- The busy branch (lines 138-178): preemption accounting, the time
advance `min (next event, completion instant)` capped by the
hyperperiod (`none` models `float('inf')` surviving, line 158), then
execution. -/
def readyPhase (s1 : SimState) (hp : ℕ) : StepRes :=
  match nextTimeOpt (preState s1 hp) hp with
  | none => .brk (preState s1 hp)
  | some nt0 => afterExec (preState s1 hp) hp (min nt0 s1.hyper)

/-- One iteration of the simulation loop (lines 105-178), phase by
phase in source order: loop condition, event consumption, ready-set
construction, and the idle or busy branch. -/
def step (s : SimState) : StepRes :=
  if s.eventIndex < s.events.length ∨ s.runningJob ≠ none then
    match consumeList s.jobs s.currentTime (s.events.drop s.eventIndex) with
    | none => .ret (false, []) s.counts
    | some k =>
      match selectHP s.jobs s.currentTime with
      | none => idlePhase { s with eventIndex := s.eventIndex + k }
      | some hp => readyPhase { s with eventIndex := s.eventIndex + k } hp
  else .brk s

/-- Final check (lines 180-185): non-schedulable if any job has
remaining time above the tolerance, otherwise schedulable with the
per-task counters. -/
def finishCheck (jobs : List Job) (counts : List ℕ) : Bool × List ℕ :=
  if jobs.any (fun j => decide (eps < j.remaining_time)) then (false, [])
  else (true, counts)

/-- Fuel-indexed iteration of `step`; `none` means the fuel ran out.
On termination it returns the function's return value together with
the per-task counters at that moment (the state Python left on the
task objects). -/
def run : ℕ → SimState → Option ((Bool × List ℕ) × List ℕ)
  | 0, _ => none
  | fuel + 1, s =>
    match step s with
    | .ret v c => some (v, c)
    | .brk s2 => some (finishCheck s2.jobs s2.counts, s2.counts)
    | .cont s2 => run fuel s2

/-- Number of not-yet-completed jobs; part of the termination
measure. -/
def countIncomplete (jobs : List Job) : ℕ := jobs.countP (fun j => !j.completed)

/-- `1` when the next unprocessed event is due (time at most
`currentTime + eps`), else `0`; part of the termination measure. -/
def pendingBit (s : SimState) : ℕ :=
  match s.events.get? s.eventIndex with
  | some e => if e.time ≤ s.currentTime + eps then 1 else 0
  | none => 0

/-- Termination measure of the simulation loop: incomplete jobs
dominate, then unprocessed events, refined by whether an event is
already due. -/
def mu (s : SimState) : ℕ :=
  countIncomplete s.jobs * (2 * s.events.length + 3) +
    (2 * (s.events.length - s.eventIndex) + 1 - pendingBit s)

/-- Lines 68-69: `task.preemption_count = 0` for every task. -/
def resetTasks (ts : List Task) : List Task :=
  ts.map (fun t => { t with preemption_count := 0 })

/-- Write the per-task counters of the simulation state back onto the
task objects, modeling the in-place counter mutation of line 142. -/
def writeCounts (ts : List Task) (cnts : List ℕ) : List Task :=
  ts.enum.map (fun p => { p.2 with preemption_count := cnts.getD p.1 0 })

/-- Outcome of `simulate_dm_scheduling`: a returned pair, a raised
exception, or non-termination. -/
inductive SimResult where
  | ok : Bool → List ℕ → SimResult
  | exn : SimResult
  | div : SimResult
deriving DecidableEq

/-- `simulate_dm_scheduling` (lines 57-185), paired with the task list
as left mutated by the call (Python mutates `preemption_count` on the
caller's `Task` objects).  Branch order follows the source: empty task
set, hyperperiod computation, the `1000000` ceiling guard, counter
reset, job generation, job sort, event construction, the simulation
loop, and the final completion check. -/
def simulate_dm_scheduling (tasks : List Task) : SimResult × List Task :=
  if tasks = [] then (.ok true [], tasks)
  else
    match calculate_hyperperiod tasks with
    | .err .exn => (.exn, tasks)
    | .err .div => (.div, tasks)
    | .ok hyper =>
      if 1000000 < hyper then (.ok false [], tasks)
      else
        let tasks0 := resetTasks tasks
        match genJobsFrom tasks 0 hyper with
        | none => (.div, tasks0)
        | some rawJobs =>
          let jobs := rawJobs.mergeSort jobLe
          let events := mkEvents jobs
          let s0 : SimState :=
            { hyper := hyper, jobs := jobs, events := events, eventIndex := 0,
              currentTime := 0, runningJob := none,
              counts := List.replicate tasks.length 0 }
          match run (mu s0 + 1) s0 with
          | none => (.div, tasks0)
          | some (v, cnts) => (.ok v.1 v.2, writeCounts tasks cnts)

/-- The observable result of `simulate_dm_scheduling` (its return
value). -/
def simulate (tasks : List Task) : SimResult := (simulate_dm_scheduling tasks).1

/-- Rational divisibility with an integer quotient: `x` is an integer
multiple of `g`. -/
def QDvd (g x : ℚ) : Prop := ∃ k : ℤ, x = g * k

/-- `x` lies on the lattice of integer multiples of `1 / L` (stated as
`x * L` being an integer); the invariant that makes the rational
Euclid loop terminate. -/
def onLattice (L x : ℚ) : Prop := ∃ k : ℤ, x * L = k

/-- The job record the generator builds for the `n`-th release of task
`t` (task-list position `tIdx`): release `n * period`, absolute
deadline `release + deadline`, remaining time `execution_time`,
sequence number `n`. -/
def mkJob (t : Task) (tIdx : ℕ) (n : ℕ) : Job :=
  { release_time := n * t.period, taskIdx := tIdx, tid := t.task_id,
    absolute_deadline := n * t.period + t.deadline,
    remaining_time := t.execution_time, job_id := n, completed := false }

/-- Equality of tasks up to the mutable `preemption_count` field:
"independently-constructed but value-equal" task sets. -/
def coreEq (t u : Task) : Prop :=
  t.execution_time = u.execution_time ∧ t.period = u.period ∧
    t.deadline = u.deadline ∧ t.task_id = u.task_id

/-- A task with strictly positive execution time, period, and deadline
(the validated-input precondition of the core). -/
def validTask (t : Task) : Prop :=
  0 < t.execution_time ∧ 0 < t.period ∧ 0 < t.deadline

/-! ### Arithmetic facts about the rational Euclid loop -/

theorem eps_pos : 0 < eps := by norm_num [eps]

theorem rat_mul_den (q : ℚ) : q * (q.den : ℚ) = (q.num : ℚ) := by
  have hd : ((q.den : ℚ)) ≠ 0 := Nat.cast_ne_zero.mpr q.den_pos.ne'
  have h := Rat.num_div_den q
  rw [div_eq_iff hd] at h
  linarith [h]

theorem ratMod_eq_fract (a b : ℚ) (hb : b ≠ 0) :
    ratMod a b = b * Int.fract (a / b) := by
  unfold ratMod
  rw [Int.fract, mul_sub]
  congr 1
  field_simp

theorem ratMod_nonneg (a b : ℚ) (hb : 0 < b) : 0 ≤ ratMod a b := by
  rw [ratMod_eq_fract a b (ne_of_gt hb)]
  exact mul_nonneg hb.le (Int.fract_nonneg _)

theorem ratMod_lt (a b : ℚ) (hb : 0 < b) : ratMod a b < b := by
  rw [ratMod_eq_fract a b (ne_of_gt hb)]
  calc b * Int.fract (a / b) < b * 1 :=
        (mul_lt_mul_left hb).mpr (Int.fract_lt_one _)
    _ = b := mul_one b

theorem qdvd_self (g : ℚ) : QDvd g g := ⟨1, by simp⟩

theorem qdvd_zero (g : ℚ) : QDvd g 0 := ⟨0, by simp⟩

theorem qdvd_of_mod (g a b : ℚ) (h1 : QDvd g b) (h2 : QDvd g (ratMod a b)) :
    QDvd g a := by
  obtain ⟨k1, hk1⟩ := h1
  obtain ⟨k2, hk2⟩ := h2
  refine ⟨k2 + k1 * ⌊a / b⌋, ?_⟩
  calc a = ratMod a b + b * ⌊a / b⌋ := by unfold ratMod; ring
    _ = g * k2 + g * k1 * ⌊a / b⌋ := by rw [hk2, hk1]
    _ = g * ((k2 + k1 * ⌊a / b⌋ : ℤ) : ℚ) := by push_cast; ring

theorem qdvd_trans (a b c : ℚ) (h1 : QDvd a b) (h2 : QDvd b c) : QDvd a c := by
  obtain ⟨k1, hk1⟩ := h1
  obtain ⟨k2, hk2⟩ := h2
  exact ⟨k1 * k2, by rw [hk2, hk1]; push_cast; ring⟩

theorem onLattice_ratMod (L a b : ℚ) (ha : onLattice L a) (hb : onLattice L b) :
    onLattice L (ratMod a b) := by
  obtain ⟨ka, hka⟩ := ha
  obtain ⟨kb, hkb⟩ := hb
  refine ⟨ka - ⌊a / b⌋ * kb, ?_⟩
  have : ratMod a b * L = a * L - ⌊a / b⌋ * (b * L) := by unfold ratMod; ring
  rw [this, hka, hkb]
  push_cast
  ring

theorem onLattice_num_lt (L x y : ℚ) (hL : 0 < L) (hx : onLattice L x)
    (hy : onLattice L y) (h0 : 0 ≤ x) (hxy : x < y) :
    (x * L).num.toNat < (y * L).num.toNat := by
  obtain ⟨kx, hkx⟩ := hx
  obtain ⟨ky, hky⟩ := hy
  have h1 : x * L < y * L := by exact mul_lt_mul_of_pos_right hxy hL
  have h2 : (kx : ℚ) < (ky : ℚ) := by rw [← hkx, ← hky]; exact h1
  have h3 : kx < ky := by exact_mod_cast h2
  have h4 : (0 : ℚ) ≤ (kx : ℚ) := by
    rw [← hkx]; exact mul_nonneg h0 hL.le
  have h5 : 0 ≤ kx := by exact_mod_cast h4
  rw [hkx, hky, Rat.num_intCast, Rat.num_intCast]
  omega

/-- Adequacy and correctness of the Euclid loop `gcdAux` on the
lattice of multiples of `1 / L`: with fuel exceeding the (integer)
numerator of `b * L` the loop terminates and returns a nonnegative
common divisor of `a` and `b`, positive whenever one input is. -/
theorem gcdAux_spec (L : ℚ) (hL : 0 < L) :
    ∀ fuel (a b : ℚ), 0 ≤ a → 0 ≤ b → onLattice L a → onLattice L b →
      (b * L).num.toNat < fuel →
      ∃ g, gcdAux fuel a b = some g ∧ 0 ≤ g ∧ QDvd g a ∧ QDvd g b ∧
        ((0 < a ∨ 0 < b) → 0 < g) := by
  intro fuel
  induction fuel with
  | zero => intro a b _ _ _ _ hf; omega
  | succ n ih =>
    intro a b ha hb hla hlb hf
    by_cases hb0 : b = 0
    · refine ⟨a, ?_, ha, qdvd_self a, hb0 ▸ qdvd_zero a, ?_⟩
      · simp [gcdAux, hb0]
      · rintro (h | h)
        · exact h
        · exact absurd h (by simp [hb0])
    · have hbpos : 0 < b := lt_of_le_of_ne hb (Ne.symm hb0)
      have hmod0 : 0 ≤ ratMod a b := ratMod_nonneg a b hbpos
      have hmlt : ratMod a b < b := ratMod_lt a b hbpos
      have hlm : onLattice L (ratMod a b) := onLattice_ratMod L a b hla hlb
      have hfm : (ratMod a b * L).num.toNat < n := by
        have := onLattice_num_lt L (ratMod a b) b hL hlm hlb hmod0 hmlt
        omega
      obtain ⟨g, hg, hg0, hgb, hgm, hgpos⟩ := ih b (ratMod a b) hb hmod0 hlb hlm hfm
      refine ⟨g, ?_, hg0, qdvd_of_mod g a b hgb hgm, hgb, ?_⟩
      · simp [gcdAux, hb0, hg]
      · intro _
        exact hgpos (Or.inl hbpos)

theorem limitDen_eq_self (q : ℚ) (D : ℕ) (h : q.den ≤ D) : limitDen q D = q := by
  unfold limitDen
  rw [if_pos h]

theorem limitDen_nonneg (q : ℚ) (D : ℕ) (hq : 0 ≤ q) : 0 ≤ limitDen q D := by
  unfold limitDen
  by_cases h : q.den ≤ D
  · rw [if_pos h]
    exact hq
  · rw [if_neg h]
    dsimp only
    split
    · positivity
    · positivity

/-- The `gcd` of the source always terminates on nonnegative inputs
and returns a nonnegative common divisor of the two
denominator-limited approximations, positive whenever one of them
is. -/
theorem gcd_spec (a b : ℚ) (ha : 0 ≤ a) (hb : 0 ≤ b) :
    ∃ g, gcd a b = some g ∧ 0 ≤ g ∧ QDvd g (limitDen a 1000) ∧
      QDvd g (limitDen b 1000) ∧
      ((0 < limitDen a 1000 ∨ 0 < limitDen b 1000) → 0 < g) := by
  have hfa0 : 0 ≤ limitDen a 1000 := limitDen_nonneg a 1000 ha
  have hfb0 : 0 ≤ limitDen b 1000 := limitDen_nonneg b 1000 hb
  set fa := limitDen a 1000 with hfa
  set fb := limitDen b 1000 with hfb
  set L : ℚ := (((fa.den * fb.den : ℕ)) : ℚ) with hL
  have hLpos : 0 < L := by
    rw [hL]
    exact_mod_cast Nat.mul_pos fa.den_pos fb.den_pos
  have hlatA : onLattice L fa := by
    refine ⟨fa.num * fb.den, ?_⟩
    rw [hL]
    push_cast
    calc fa * ((fa.den : ℚ) * (fb.den : ℚ)) = fa * (fa.den : ℚ) * (fb.den : ℚ) := by ring
      _ = (fa.num : ℚ) * (fb.den : ℚ) := by rw [rat_mul_den]
  have hlatB : onLattice L fb := by
    refine ⟨fb.num * fa.den, ?_⟩
    rw [hL]
    push_cast
    calc fb * ((fa.den : ℚ) * (fb.den : ℚ)) = fb * (fb.den : ℚ) * (fa.den : ℚ) := by ring
      _ = (fb.num : ℚ) * (fa.den : ℚ) := by rw [rat_mul_den]
  obtain ⟨g, hg, hg0, hga, hgb, hgpos⟩ :=
    gcdAux_spec L hLpos ((fb * L).num.toNat + 1) fa fb hfa0 hfb0 hlatA hlatB
      (by omega)
  exact ⟨g, hg, hg0, hga, hgb, hgpos⟩

/-- A rational times an integer has a denominator dividing the
original denominator. -/
theorem den_mul_int_dvd (x : ℚ) (k : ℤ) : (x * (k : ℚ)).den ∣ x.den := by
  have hd : ((x.den : ℚ)) ≠ 0 := Nat.cast_ne_zero.mpr x.den_pos.ne'
  have hx : x * (k : ℚ) = Rat.divInt (x.num * k) (x.den : ℤ) := by
    rw [Rat.divInt_eq_div]
    push_cast
    rw [eq_div_iff hd]
    calc x * (k : ℚ) * (x.den : ℚ) = x * (x.den : ℚ) * (k : ℚ) := by ring
      _ = (x.num : ℚ) * (k : ℚ) := by rw [rat_mul_den]
  have := Rat.den_dvd (x.num * k) (x.den : ℤ)
  rw [← hx] at this
  exact_mod_cast this

/-- Unfolding of `lcm` through a known `gcd` value. -/
theorem lcm_eq (a b g : ℚ) (hg : gcd a b = some g) :
    lcm a b = if g = 0 then .err .exn else .ok (|a * b| / g) := by
  unfold lcm
  rw [hg]

/-- Correctness of `lcm` on positive rationals whose denominators are
within the `limit_denominator` bound: the Euclid loop terminates with
remainder exactly zero on a positive gcd of the two inputs themselves,
and `lcm` returns `|a * b| / g` exactly — a positive common multiple
of `a` and `b` whose denominator again respects the bound. -/
theorem lcm_spec (a b : ℚ) (hapos : 0 < a) (hbpos : 0 < b)
    (hda : a.den ≤ 1000) (hdb : b.den ≤ 1000) :
    ∃ g, gcd a b = some g ∧ 0 < g ∧ QDvd g a ∧ QDvd g b ∧
      lcm a b = .ok (|a * b| / g) ∧ 0 < |a * b| / g ∧
      QDvd a (|a * b| / g) ∧ QDvd b (|a * b| / g) ∧ (|a * b| / g).den ≤ 1000 := by
  have hea : limitDen a 1000 = a := limitDen_eq_self a 1000 hda
  have heb : limitDen b 1000 = b := limitDen_eq_self b 1000 hdb
  obtain ⟨g, hg, hg0, hga, hgb, hgpos⟩ := gcd_spec a b hapos.le hbpos.le
  rw [hea] at hga hgpos
  rw [heb] at hgb
  have hgp : 0 < g := hgpos (Or.inl hapos)
  have habs : |a * b| = a * b := abs_of_pos (mul_pos hapos hbpos)
  obtain ⟨ka, hka⟩ := hga
  obtain ⟨kb, hkb⟩ := hgb
  have hdA : QDvd a (|a * b| / g) := by
    refine ⟨kb, ?_⟩
    rw [habs, hkb]
    field_simp
    ring
  have hdB : QDvd b (|a * b| / g) := by
    refine ⟨ka, ?_⟩
    rw [habs, hka]
    field_simp
    ring
  refine ⟨g, hg, hgp, ⟨ka, hka⟩, ⟨kb, hkb⟩, ?_, ?_, hdA, hdB, ?_⟩
  · rw [lcm_eq a b g hg, if_neg hgp.ne']
  · rw [habs]
    positivity
  · obtain ⟨kb2, hkb2⟩ := hdA
    rw [hkb2]
    exact Nat.le_trans (Nat.le_of_dvd a.den_pos (den_mul_int_dvd a kb2)) hda

/-- The hyperperiod fold keeps returning an exact positive common
multiple as long as the running value and every remaining period are
positive with denominators within the `limit_denominator` bound. -/
theorem hyperFold_spec : ∀ (ts : List Task) (h : ℚ), 0 < h → h.den ≤ 1000 →
    (∀ t ∈ ts, 0 < t.period ∧ t.period.den ≤ 1000) →
    ∃ h2, hyperFold h ts = .ok h2 ∧ 0 < h2 ∧ h2.den ≤ 1000 ∧ QDvd h h2 ∧
      ∀ t ∈ ts, QDvd t.period h2 := by
  intro ts
  induction ts with
  | nil =>
    intro h hp hd _
    exact ⟨h, rfl, hp, hd, qdvd_self h, by simp⟩
  | cons t ts ih =>
    intro h hp hd hts
    have ht := hts t (by simp)
    obtain ⟨g, hg, hgp, hgh, hgt, hlcm, hlp, hmh, hmt, hmd⟩ :=
      lcm_spec h t.period hp ht.1 hd ht.2
    have hrest : ∀ u ∈ ts, 0 < u.period ∧ u.period.den ≤ 1000 := by
      intro u hu
      exact hts u (by simp [hu])
    obtain ⟨h2, hh2, hp2, hd2, hdvd2, hall2⟩ :=
      ih (|h * t.period| / g) hlp hmd hrest
    refine ⟨h2, ?_, hp2, hd2, qdvd_trans h _ h2 hmh hdvd2, ?_⟩
    · show (match lcm h t.period with
        | .err e => HRes.err e
        | .ok h3 => hyperFold h3 ts) = .ok h2
      rw [hlcm]
      exact hh2
    · intro u hu
      rcases List.mem_cons.mp hu with hut | hu2
      · rw [hut]
        exact qdvd_trans t.period _ h2 hmt hdvd2
      · exact hall2 u hu2

/-- The hyperperiod fold terminates (never `.err .div`) whenever the
running value and all periods are nonnegative; it may still raise
(`.err .exn`). -/
theorem hyperFold_no_div : ∀ (ts : List Task) (h : ℚ), 0 ≤ h →
    (∀ t ∈ ts, 0 ≤ t.period) → hyperFold h ts ≠ .err .div := by
  intro ts
  induction ts with
  | nil => intro h _ _ hc; exact HRes.noConfusion hc
  | cons t ts ih =>
    intro h hp hts
    have ht : 0 ≤ t.period := hts t (by simp)
    obtain ⟨g, hg, hg0, _, _, _⟩ := gcd_spec h t.period hp ht
    show (match lcm h t.period with
      | .err e => HRes.err e
      | .ok h3 => hyperFold h3 ts) ≠ .err .div
    rw [lcm_eq h t.period g hg]
    by_cases hz : g = 0
    · rw [if_pos hz]
      simp
    · rw [if_neg hz]
      have hgp : 0 < g := lt_of_le_of_ne hg0 (Ne.symm hz)
      exact ih (|h * t.period| / g) (by positivity)
        (fun u hu => hts u (by simp [hu]))

/-- `calculate_hyperperiod` never diverges on tasks with nonnegative
periods. -/
theorem calculate_hyperperiod_no_div (ts : List Task)
    (h : ∀ t ∈ ts, 0 ≤ t.period) : calculate_hyperperiod ts ≠ .err .div := by
  cases ts with
  | nil => intro hc; exact HRes.noConfusion hc
  | cons t ts =>
    exact hyperFold_no_div ts t.period (h t (by simp))
      (fun u hu => h u (by simp [hu]))

/-! ### The job generator -/

/-- Normal form of the release loop, generalized over the starting
release time and sequence number: with a positive period and enough
fuel it emits exactly `max 0 (ceil ((H - r) / P))` jobs, stepping the
release by the period each time. -/
theorem genJobsAux_eq (t : Task) (tIdx : ℕ) (H : ℚ) (hP : 0 < t.period) :
    ∀ fuel (r : ℚ) (jid : ℕ), (⌈(H - r) / t.period⌉).toNat < fuel →
      genJobsAux t tIdx H fuel r jid =
        some ((List.range (⌈(H - r) / t.period⌉).toNat).map
          (fun n =>
            { release_time := r + n * t.period, taskIdx := tIdx, tid := t.task_id,
              absolute_deadline := r + n * t.period + t.deadline,
              remaining_time := t.execution_time,
              job_id := jid + n, completed := false })) := by
  intro fuel
  induction fuel with
  | zero => intro r jid hf; omega
  | succ m ih =>
    intro r jid hf
    by_cases hr : r < H
    · have hnum : 0 < H - r := by linarith
      have hcpos : 0 < ⌈(H - r) / t.period⌉ := by
        rw [Int.ceil_pos]
        positivity
      have hstep : (H - (r + t.period)) / t.period = (H - r) / t.period - 1 := by
        field_simp
        ring
      have hceq : ⌈(H - (r + t.period)) / t.period⌉ = ⌈(H - r) / t.period⌉ - 1 := by
        rw [hstep, Int.ceil_sub_one]
      have hfm : (⌈(H - (r + t.period)) / t.period⌉).toNat < m := by omega
      have hcc : (⌈(H - r) / t.period⌉).toNat =
          (⌈(H - (r + t.period)) / t.period⌉).toNat + 1 := by omega
      show (if r < H then
          match genJobsAux t tIdx H m (r + t.period) (jid + 1) with
          | none => none
          | some rest =>
            some ({ release_time := r, taskIdx := tIdx, tid := t.task_id,
                    absolute_deadline := r + t.deadline,
                    remaining_time := t.execution_time,
                    job_id := jid, completed := false } :: rest)
        else some []) = _
      rw [if_pos hr, ih (r + t.period) (jid + 1) hfm]
      refine congrArg some ?_
      rw [hcc, List.range_succ_eq_map, List.map_cons, List.map_map]
      congr 1
      · simp
      · refine List.map_congr_left (fun n _ => ?_)
        simp only [Function.comp_apply]
        congr 1 <;> first | rfl | omega | (push_cast; ring)
    · have h3 : H - r ≤ 0 := by linarith
      have h2 : (H - r) / t.period ≤ 0 :=
        div_nonpos_iff.mpr (Or.inr ⟨h3, hP.le⟩)
      have hc0 : ⌈(H - r) / t.period⌉ ≤ 0 := by
        rw [Int.ceil_le]
        exact_mod_cast h2
      have ht0 : (⌈(H - r) / t.period⌉).toNat = 0 := by omega
      show (if r < H then
          match genJobsAux t tIdx H m (r + t.period) (jid + 1) with
          | none => none
          | some rest =>
            some ({ release_time := r, taskIdx := tIdx, tid := t.task_id,
                    absolute_deadline := r + t.deadline,
                    remaining_time := t.execution_time,
                    job_id := jid, completed := false } :: rest)
        else some []) = _
      rw [if_neg hr, ht0]
      simp

/-- With a positive period the release loop terminates with the fuel
the source model supplies, and produces exactly the jobs
`mkJob t tIdx 0, …, mkJob t tIdx (ceil (H / P) - 1)`: one job per
release time `0, P, 2·P, …` strictly below `H`. -/
theorem genJobsTask_eq (t : Task) (tIdx : ℕ) (H : ℚ) (hP : 0 < t.period) :
    genJobsTask t tIdx H =
      some ((List.range (⌈H / t.period⌉).toNat).map (mkJob t tIdx)) := by
  have h0 : (H - 0) / t.period = H / t.period := by ring_nf
  unfold genJobsTask genFuel
  rw [genJobsAux_eq t tIdx H hP _ 0 0 (by rw [h0]; omega)]
  refine congrArg some ?_
  rw [h0]
  refine List.map_congr_left (fun n _ => ?_)
  unfold mkJob
  congr 1 <;> first | rfl | omega | ring

/-- When `H` is `k` periods (a common multiple situation), the job
count is exactly `k`, which also equals `floor (H / P)`. -/
theorem genJobsTask_count (t : Task) (tIdx : ℕ) (H : ℚ) (hP : 0 < t.period)
    (k : ℕ) (hH : H = k * t.period) :
    ((List.range (⌈H / t.period⌉).toNat).map (mkJob t tIdx)).length = k ∧
      (⌊H / t.period⌋ : ℤ) = k := by
  have hQ : H / t.period = (k : ℚ) := by
    rw [hH]
    field_simp
  constructor
  · rw [List.length_map, List.length_range, hQ, Int.ceil_natCast]
    exact Int.toNat_natCast k
  · rw [hQ, Int.floor_natCast]

/-- The generator loop over all tasks terminates whenever every period
is positive. -/
theorem genJobsFrom_isSome : ∀ (ts : List Task) (i : ℕ) (H : ℚ),
    (∀ t ∈ ts, 0 < t.period) → ∃ l, genJobsFrom ts i H = some l := by
  intro ts
  induction ts with
  | nil => exact fun i H _ => ⟨[], rfl⟩
  | cons t ts ih =>
    intro i H h
    obtain ⟨l2, hl2⟩ := ih (i + 1) H (fun u hu => h u (by simp [hu]))
    refine ⟨(List.range (⌈H / t.period⌉).toNat).map (mkJob t i) ++ l2, ?_⟩
    show (match genJobsTask t i H with
      | none => none
      | some a =>
        match genJobsFrom ts (i + 1) H with
        | none => none
        | some b => some (a ++ b)) =
      some ((List.range (⌈H / t.period⌉).toNat).map (mkJob t i) ++ l2)
    rw [genJobsTask_eq t i H (h t (by simp)), hl2]

/-! ### The sort orders -/

theorem jobLe_trans (a b c : Job) (h1 : jobLe a b = true) (h2 : jobLe b c = true) :
    jobLe a c = true := by
  simp only [jobLe, decide_eq_true_eq] at h1 h2 ⊢
  rcases h1 with h1 | ⟨h1e, h1d⟩
  · rcases h2 with h2 | ⟨h2e, _⟩
    · exact Or.inl (h1.trans h2)
    · exact Or.inl (h2e ▸ h1)
  · rcases h2 with h2 | ⟨h2e, h2d⟩
    · exact Or.inl (h1e ▸ h2)
    · exact Or.inr ⟨h1e.trans h2e, h1d.trans h2d⟩

theorem jobLe_total (a b : Job) : jobLe a b || jobLe b a := by
  simp only [jobLe, Bool.or_eq_true, decide_eq_true_eq]
  rcases lt_trichotomy a.release_time b.release_time with h | h | h
  · exact Or.inl (Or.inl h)
  · rcases le_total a.absolute_deadline b.absolute_deadline with h2 | h2
    · exact Or.inl (Or.inr ⟨h, h2⟩)
    · exact Or.inr (Or.inr ⟨h.symm, h2⟩)
  · exact Or.inr (Or.inl h)

theorem hpLe_trans (jobs : List Job) (a b c : ℕ) (h1 : hpLe jobs a b = true)
    (h2 : hpLe jobs b c = true) : hpLe jobs a c = true := by
  simp only [hpLe, decide_eq_true_eq] at h1 h2 ⊢
  rcases h1 with h1 | ⟨h1e, h1d⟩
  · rcases h2 with h2 | ⟨h2e, _⟩
    · exact Or.inl (h1.trans h2)
    · exact Or.inl (h2e ▸ h1)
  · rcases h2 with h2 | ⟨h2e, h2d⟩
    · exact Or.inl (h1e ▸ h2)
    · exact Or.inr ⟨h1e.trans h2e, h1d.trans h2d⟩

theorem hpLe_total (jobs : List Job) (a b : ℕ) : hpLe jobs a b || hpLe jobs b a := by
  simp only [hpLe, Bool.or_eq_true, decide_eq_true_eq]
  rcases lt_trichotomy (jobs.getD a noJob).absolute_deadline
    (jobs.getD b noJob).absolute_deadline with h | h | h
  · exact Or.inl (Or.inl h)
  · rcases Nat.le_total (jobs.getD a noJob).tid (jobs.getD b noJob).tid with h2 | h2
    · exact Or.inl (Or.inr ⟨h, h2⟩)
    · exact Or.inr (Or.inr ⟨h.symm, h2⟩)
  · exact Or.inr (Or.inl h)

theorem hpLe_refl (jobs : List Job) (a : ℕ) : hpLe jobs a a = true := by
  simp [hpLe]

/-- The sorted job list of line 89 is pairwise ordered by
`(release_time, absolute_deadline)` ascending. -/
theorem sortJobs_sorted (l : List Job) :
    (l.mergeSort jobLe).Pairwise (fun a b => jobLe a b = true) :=
  List.sorted_mergeSort jobLe_trans jobLe_total l

/-- The priority selection of lines 134-136: the selected index is a
ready job and its `(absolute_deadline, task_id)` key is minimal among
all ready jobs. -/
theorem selectHP_spec (jobs : List Job) (cur : ℚ) (hp : ℕ)
    (h : selectHP jobs cur = some hp) :
    hp ∈ readyIdxs jobs cur ∧ ∀ j ∈ readyIdxs jobs cur, hpLe jobs hp j = true := by
  unfold selectHP at h
  have hperm : List.Perm ((readyIdxs jobs cur).mergeSort (hpLe jobs))
      (readyIdxs jobs cur) :=
    List.mergeSort_perm _ _
  have hpair : ((readyIdxs jobs cur).mergeSort (hpLe jobs)).Pairwise
      (fun i j => hpLe jobs i j = true) :=
    List.sorted_mergeSort (hpLe_trans jobs) (hpLe_total jobs) _
  cases hsort : (readyIdxs jobs cur).mergeSort (hpLe jobs) with
  | nil =>
    rw [hsort] at h
    exact absurd h (by simp)
  | cons x xs =>
    rw [hsort] at h hperm hpair
    have hx : x = hp := by
      simpa using h
    subst hx
    constructor
    · exact hperm.mem_iff.mp (List.mem_cons_self x xs)
    · intro j hj
      have hj2 : j ∈ x :: xs := hperm.mem_iff.mpr hj
      rcases List.mem_cons.mp hj2 with hjx | hjs
      · rw [hjx]
        exact hpLe_refl jobs x
      · exact (List.pairwise_cons.mp hpair).1 j hjs

/-- Membership in the ready list means: in range and ready. -/
theorem readyIdxs_mem (jobs : List Job) (cur : ℚ) (i : ℕ) :
    i ∈ readyIdxs jobs cur ↔
      i < jobs.length ∧ isReadyB (jobs.getD i noJob) cur = true := by
  unfold readyIdxs
  rw [List.mem_filter, List.mem_range]

/-! ### Consumption and the termination measure -/

/-- After the inner event loop consumes `k` events, the next
unprocessed event (if any) is strictly beyond `cur + eps`. -/
theorem consumeList_next (jobs : List Job) (cur : ℚ) :
    ∀ (evs : List Event) (k : ℕ), consumeList jobs cur evs = some k →
      ∀ e, evs.get? k = some e → cur + eps < e.time := by
  intro evs
  induction evs with
  | nil =>
    intro k _ e he
    simp at he
  | cons ev rest ih =>
    intro k hk e he
    unfold consumeList at hk
    by_cases h1 : ev.time ≤ cur + eps
    · rw [if_pos h1] at hk
      by_cases h2 : ev.isDeadline = true ∧
          (jobs.getD ev.jobIdx noJob).completed = false ∧
          eps < (jobs.getD ev.jobIdx noJob).remaining_time
      · rw [if_pos h2] at hk
        exact absurd hk (by simp)
      · rw [if_neg h2] at hk
        obtain ⟨k2, hk2, hkk⟩ := Option.map_eq_some'.mp hk
        subst hkk
        exact ih k2 hk2 e he
    · rw [if_neg h1] at hk
      have hk0 : k = 0 := by
        have := Option.some.inj hk
        omega
      subst hk0
      have : e = ev := by
        simp at he
        exact he.symm
      subst this
      exact not_le.mp h1

/-- The inner event loop never consumes more events than exist. -/
theorem consumeList_le (jobs : List Job) (cur : ℚ) :
    ∀ (evs : List Event) (k : ℕ), consumeList jobs cur evs = some k →
      k ≤ evs.length := by
  intro evs
  induction evs with
  | nil =>
    intro k hk
    have : (0 : ℕ) = k := Option.some.inj hk
    simp [← this]
  | cons ev rest ih =>
    intro k hk
    unfold consumeList at hk
    by_cases h1 : ev.time ≤ cur + eps
    · rw [if_pos h1] at hk
      by_cases h2 : ev.isDeadline = true ∧
          (jobs.getD ev.jobIdx noJob).completed = false ∧
          eps < (jobs.getD ev.jobIdx noJob).remaining_time
      · rw [if_pos h2] at hk
        exact absurd hk (by simp)
      · rw [if_neg h2] at hk
        obtain ⟨k2, hk2, hkk⟩ := Option.map_eq_some'.mp hk
        have := ih k2 hk2
        simp
        omega
    · rw [if_neg h1] at hk
      have : (0 : ℕ) = k := Option.some.inj hk
      simp [← this]

theorem pendingBit_le_one (s : SimState) : pendingBit s ≤ 1 := by
  unfold pendingBit
  split
  · split <;> omega
  · omega

/-- Updating a job without changing its completion flag preserves the
incomplete count. -/
theorem countIncomplete_set_eq (jobs : List Job) (i : ℕ) (jb : Job)
    (h : jb.completed = (jobs.getD i noJob).completed) :
    countIncomplete (jobs.set i jb) = countIncomplete jobs := by
  induction jobs generalizing i with
  | nil => rfl
  | cons a l ih =>
    cases i with
    | zero =>
      simp only [List.getD_cons_zero] at h
      simp [countIncomplete, List.countP_cons, h]
    | succ n =>
      simp only [List.getD_cons_succ] at h
      simp only [List.set_cons_succ, countIncomplete, List.countP_cons]
      have := ih n h
      unfold countIncomplete at this
      omega

/-- Completing an incomplete job decreases the incomplete count by
exactly one. -/
theorem countIncomplete_set_complete (jobs : List Job) (i : ℕ) (jb : Job)
    (hi : i < jobs.length) (hold : (jobs.getD i noJob).completed = false)
    (hnew : jb.completed = true) :
    countIncomplete (jobs.set i jb) + 1 = countIncomplete jobs := by
  induction jobs generalizing i with
  | nil => simp at hi
  | cons a l ih =>
    cases i with
    | zero =>
      simp only [List.getD_cons_zero] at hold
      simp [countIncomplete, List.countP_cons, hold, hnew]
    | succ n =>
      simp only [List.getD_cons_succ] at hold
      simp only [List.set_cons_succ, countIncomplete, List.countP_cons]
      have := ih n (by simpa using hi) hold
      unfold countIncomplete at this
      omega

/-- Facts available right after the consumption phase of a step: the
next unprocessed event (if any) lies strictly beyond the tolerance
window, and if nothing was consumed then no event was due. -/
theorem consume_facts (s : SimState) (k : ℕ)
    (hc : consumeList s.jobs s.currentTime (s.events.drop s.eventIndex) = some k) :
    (∀ e, s.events.get? (s.eventIndex + k) = some e →
      s.currentTime + eps < e.time) ∧
      (k = 0 → pendingBit s = 0) := by
  have hdrop : ∀ j : ℕ, (s.events.drop s.eventIndex).get? j =
      s.events.get? (s.eventIndex + j) := by
    intro j
    rw [List.get?_eq_getElem?, List.get?_eq_getElem?, List.getElem?_drop]
  have hnext : ∀ e, s.events.get? (s.eventIndex + k) = some e →
      s.currentTime + eps < e.time := by
    intro e he
    exact consumeList_next s.jobs s.currentTime _ k hc e (by rw [hdrop]; exact he)
  refine ⟨hnext, ?_⟩
  intro hk0
  subst hk0
  unfold pendingBit
  cases hget : s.events.get? s.eventIndex with
  | none => rfl
  | some e =>
    have hlt := hnext e (by simpa using hget)
    show (if e.time ≤ s.currentTime + eps then 1 else 0) = 0
    rw [if_neg (not_le.mpr hlt)]

/-- Characterization of the next-time computation when the selected
job has positive remaining time. -/
theorem nextTimeOpt_eq (s1 : SimState) (hp : ℕ)
    (hrem : eps < (s1.jobs.getD hp noJob).remaining_time) :
    nextTimeOpt s1 hp =
      match s1.events.get? s1.eventIndex with
      | none => some (s1.currentTime + (s1.jobs.getD hp noJob).remaining_time)
      | some e =>
        some (min e.time (s1.currentTime + (s1.jobs.getD hp noJob).remaining_time)) := by
  unfold nextTimeOpt
  rw [if_pos hrem]
  cases s1.events.get? s1.eventIndex <;> rfl

/-- The idle branch, entered after consuming `k` events, strictly
decreases the measure whenever it continues the loop. -/
theorem idlePhase_mu (s : SimState) (k : ℕ) (s2 : SimState)
    (hc : consumeList s.jobs s.currentTime (s.events.drop s.eventIndex) = some k)
    (h : idlePhase { s with eventIndex := s.eventIndex + k } = .cont s2) :
    mu s2 < mu s := by
  obtain ⟨hnext, hk0⟩ := consume_facts s k hc
  unfold idlePhase at h
  rw [show ({ s with eventIndex := s.eventIndex + k } : SimState).events = s.events
      from rfl,
    show ({ s with eventIndex := s.eventIndex + k } : SimState).eventIndex =
      s.eventIndex + k from rfl] at h
  cases hget : s.events.get? (s.eventIndex + k) with
  | none =>
    rw [hget] at h
    exact absurd h (by simp)
  | some e =>
    rw [hget] at h
    have h2 :
        ({ s with
            eventIndex := s.eventIndex + k,
            runningJob := none,
            currentTime := e.time } : SimState) = s2 := by
      injection h
    obtain ⟨hik, _⟩ := List.get?_eq_some.mp hget
    have hpb2 :
        pendingBit
          { s with
            eventIndex := s.eventIndex + k,
            runningJob := none,
            currentTime := e.time } = 1 := by
      unfold pendingBit
      show (match s.events.get? (s.eventIndex + k) with
        | some e2 => if e2.time ≤ e.time + eps then 1 else 0
        | none => 0) = 1
      rw [hget]
      show (if e.time ≤ e.time + eps then 1 else 0) = 1
      rw [if_pos (le_add_of_nonneg_right eps_pos.le)]
    have hpbs : pendingBit s ≤ 1 := pendingBit_le_one s
    rw [← h2]
    show countIncomplete s.jobs * (2 * s.events.length + 3) +
        (2 * (s.events.length - (s.eventIndex + k)) + 1 -
          pendingBit
            { s with
              eventIndex := s.eventIndex + k,
              runningJob := none,
              currentTime := e.time }) <
      countIncomplete s.jobs * (2 * s.events.length + 3) +
        (2 * (s.events.length - s.eventIndex) + 1 - pendingBit s)
    refine Nat.add_lt_add_left ?_ _
    rw [hpb2]
    omega

/-- The busy branch strictly decreases the measure whenever it
continues the loop: either the executed job completes (one fewer
incomplete job) or the time advance lands exactly on the next pending
event (refining the event part of the measure). -/
theorem readyPhase_mu (s : SimState) (k hp : ℕ) (s2 : SimState)
    (hc : consumeList s.jobs s.currentTime (s.events.drop s.eventIndex) = some k)
    (hsel : selectHP s.jobs s.currentTime = some hp)
    (h : readyPhase { s with eventIndex := s.eventIndex + k } hp = .cont s2) :
    mu s2 < mu s := by
  obtain ⟨hnext, hk0⟩ := consume_facts s k hc
  obtain ⟨hmem, _⟩ := selectHP_spec s.jobs s.currentTime hp hsel
  rw [readyIdxs_mem] at hmem
  obtain ⟨hhp, hready⟩ := hmem
  simp only [isReadyB, Bool.and_eq_true, decide_eq_true_eq,
    Bool.not_eq_true'] at hready
  obtain ⟨⟨hrel, hrem⟩, hcompl⟩ := hready
  have hpbs : pendingBit s ≤ 1 := pendingBit_le_one s
  have hepos := eps_pos
  set E := preState { s with eventIndex := s.eventIndex + k } hp with hE
  have hremE : eps < (E.jobs.getD hp noJob).remaining_time := hrem
  unfold readyPhase at h
  rw [← hE] at h
  cases hget : s.events.get? (s.eventIndex + k) with
  | none =>
    have hNT : nextTimeOpt E hp =
        some (s.currentTime + (s.jobs.getD hp noJob).remaining_time) := by
      rw [nextTimeOpt_eq E hp hremE,
        show E.events.get? E.eventIndex = s.events.get? (s.eventIndex + k) from rfl,
        hget]
      rfl
    rw [hNT] at h
    have h2 : afterExec E hp
        (min (s.currentTime + (s.jobs.getD hp noJob).remaining_time) s.hyper) =
        .cont s2 := h
    unfold afterExec at h2
    by_cases hge : E.hyper ≤
        min (s.currentTime + (s.jobs.getD hp noJob).remaining_time) s.hyper
    · rw [if_pos hge] at h2
      exact absurd h2 (by simp)
    · rw [if_neg hge] at h2
      have hmlt : min (s.currentTime + (s.jobs.getD hp noJob).remaining_time)
          s.hyper < s.hyper := not_le.mp hge
      have hmin : min (s.currentTime + (s.jobs.getD hp noJob).remaining_time)
          s.hyper = s.currentTime + (s.jobs.getD hp noJob).remaining_time := by
        rcases min_cases (s.currentTime + (s.jobs.getD hp noJob).remaining_time)
          s.hyper with ⟨he2, _⟩ | ⟨he2, _⟩
        · exact he2
        · exfalso
          rw [he2] at hmlt
          exact lt_irrefl _ hmlt
      rw [hmin] at h2
      have h3 : ({ execPhase E hp
          (s.currentTime + (s.jobs.getD hp noJob).remaining_time) with
          currentTime :=
            s.currentTime + (s.jobs.getD hp noJob).remaining_time } : SimState) =
          s2 := by
        injection h2
      have hexecEq : execPhase E hp
          (s.currentTime + (s.jobs.getD hp noJob).remaining_time) =
          { s with
            eventIndex := s.eventIndex + k,
            counts := preemptCounts s.jobs s.runningJob hp s.counts,
            runningJob := none,
            jobs := s.jobs.set hp
              { s.jobs.getD hp noJob with
                remaining_time := (s.jobs.getD hp noJob).remaining_time -
                  min (s.currentTime + (s.jobs.getD hp noJob).remaining_time -
                    s.currentTime) ((s.jobs.getD hp noJob).remaining_time),
                completed := true } } := by
        unfold execPhase
        rw [if_pos ?hcnd, if_pos ?hfin]
        case hcnd =>
          refine ⟨?_, hremE⟩
          show 0 < s.currentTime + (s.jobs.getD hp noJob).remaining_time -
            s.currentTime
          linarith
        case hfin =>
          show (s.jobs.getD hp noJob).remaining_time -
              min (s.currentTime + (s.jobs.getD hp noJob).remaining_time -
                s.currentTime) ((s.jobs.getD hp noJob).remaining_time) ≤ eps
          have harg : s.currentTime + (s.jobs.getD hp noJob).remaining_time -
              s.currentTime = (s.jobs.getD hp noJob).remaining_time := by ring
          rw [harg, min_self, sub_self]
          exact eps_pos.le
        rfl
      rw [hexecEq] at h3
      rw [← h3]
      have hcnt : countIncomplete (s.jobs.set hp
          { s.jobs.getD hp noJob with
            remaining_time := (s.jobs.getD hp noJob).remaining_time -
              min (s.currentTime + (s.jobs.getD hp noJob).remaining_time -
                s.currentTime) ((s.jobs.getD hp noJob).remaining_time),
            completed := true }) + 1 = countIncomplete s.jobs :=
        countIncomplete_set_complete s.jobs hp _ hhp hcompl rfl
      have hprod : countIncomplete s.jobs * (2 * s.events.length + 3) =
          countIncomplete (s.jobs.set hp
            { s.jobs.getD hp noJob with
              remaining_time := (s.jobs.getD hp noJob).remaining_time -
                min (s.currentTime + (s.jobs.getD hp noJob).remaining_time -
                  s.currentTime) ((s.jobs.getD hp noJob).remaining_time),
              completed := true }) * (2 * s.events.length + 3) +
            (2 * s.events.length + 3) := by
        rw [← hcnt]
        ring
      show countIncomplete (s.jobs.set hp
          { s.jobs.getD hp noJob with
            remaining_time := (s.jobs.getD hp noJob).remaining_time -
              min (s.currentTime + (s.jobs.getD hp noJob).remaining_time -
                s.currentTime) ((s.jobs.getD hp noJob).remaining_time),
            completed := true }) * (2 * s.events.length + 3) +
          (2 * (s.events.length - (s.eventIndex + k)) + 1 -
            pendingBit { s with
              eventIndex := s.eventIndex + k,
              counts := preemptCounts s.jobs s.runningJob hp s.counts,
              runningJob := none,
              jobs := s.jobs.set hp
                { s.jobs.getD hp noJob with
                  remaining_time := (s.jobs.getD hp noJob).remaining_time -
                    min (s.currentTime + (s.jobs.getD hp noJob).remaining_time -
                      s.currentTime) ((s.jobs.getD hp noJob).remaining_time),
                  completed := true },
              currentTime :=
                s.currentTime + (s.jobs.getD hp noJob).remaining_time }) <
        countIncomplete s.jobs * (2 * s.events.length + 3) +
          (2 * (s.events.length - s.eventIndex) + 1 - pendingBit s)
      omega
  | some e =>
    have hetime : s.currentTime + eps < e.time := hnext e hget
    have hNT : nextTimeOpt E hp = some (min e.time
        (s.currentTime + (s.jobs.getD hp noJob).remaining_time)) := by
      rw [nextTimeOpt_eq E hp hremE,
        show E.events.get? E.eventIndex = s.events.get? (s.eventIndex + k) from rfl,
        hget]
      rfl
    rw [hNT] at h
    obtain ⟨hik, _⟩ := List.get?_eq_some.mp hget
    set nt0 := min e.time
      (s.currentTime + (s.jobs.getD hp noJob).remaining_time) with hnt0
    have h2 : afterExec E hp (min nt0 s.hyper) = .cont s2 := h
    unfold afterExec at h2
    by_cases hge : E.hyper ≤ min nt0 s.hyper
    · rw [if_pos hge] at h2
      exact absurd h2 (by simp)
    · rw [if_neg hge] at h2
      have hmlt : min nt0 s.hyper < s.hyper := not_le.mp hge
      have hmin : min nt0 s.hyper = nt0 := by
        rcases min_cases nt0 s.hyper with ⟨he2, _⟩ | ⟨he2, _⟩
        · exact he2
        · exfalso
          rw [he2] at hmlt
          exact lt_irrefl _ hmlt
      rw [hmin] at h2
      have h3 : ({ execPhase E hp nt0 with currentTime := nt0 } : SimState) =
          s2 := by
        injection h2
      have hcur_lt : s.currentTime < nt0 := by
        rw [hnt0]
        apply lt_min
        · linarith
        · linarith
      by_cases hfin : (s.jobs.getD hp noJob).remaining_time -
          min (nt0 - s.currentTime) ((s.jobs.getD hp noJob).remaining_time) ≤ eps
      · -- the job completes at nt0
        have hexecEq : execPhase E hp nt0 =
            { s with
              eventIndex := s.eventIndex + k,
              counts := preemptCounts s.jobs s.runningJob hp s.counts,
              runningJob := none,
              jobs := s.jobs.set hp
                { s.jobs.getD hp noJob with
                  remaining_time := (s.jobs.getD hp noJob).remaining_time -
                    min (nt0 - s.currentTime)
                      ((s.jobs.getD hp noJob).remaining_time),
                  completed := true } } := by
          unfold execPhase
          rw [if_pos ?hcnd, if_pos ?hfin2]
          case hcnd =>
            refine ⟨?_, hremE⟩
            show 0 < nt0 - s.currentTime
            linarith
          case hfin2 =>
            exact hfin
          rfl
        rw [hexecEq] at h3
        rw [← h3]
        have hcnt : countIncomplete (s.jobs.set hp
            { s.jobs.getD hp noJob with
              remaining_time := (s.jobs.getD hp noJob).remaining_time -
                min (nt0 - s.currentTime) ((s.jobs.getD hp noJob).remaining_time),
              completed := true }) + 1 = countIncomplete s.jobs :=
          countIncomplete_set_complete s.jobs hp _ hhp hcompl rfl
        have hprod : countIncomplete s.jobs * (2 * s.events.length + 3) =
            countIncomplete (s.jobs.set hp
              { s.jobs.getD hp noJob with
                remaining_time := (s.jobs.getD hp noJob).remaining_time -
                  min (nt0 - s.currentTime)
                    ((s.jobs.getD hp noJob).remaining_time),
                completed := true }) * (2 * s.events.length + 3) +
              (2 * s.events.length + 3) := by
          rw [← hcnt]
          ring
        show countIncomplete (s.jobs.set hp
            { s.jobs.getD hp noJob with
              remaining_time := (s.jobs.getD hp noJob).remaining_time -
                min (nt0 - s.currentTime) ((s.jobs.getD hp noJob).remaining_time),
              completed := true }) * (2 * s.events.length + 3) +
            (2 * (s.events.length - (s.eventIndex + k)) + 1 -
              pendingBit { s with
                eventIndex := s.eventIndex + k,
                counts := preemptCounts s.jobs s.runningJob hp s.counts,
                runningJob := none,
                jobs := s.jobs.set hp
                  { s.jobs.getD hp noJob with
                    remaining_time := (s.jobs.getD hp noJob).remaining_time -
                      min (nt0 - s.currentTime)
                        ((s.jobs.getD hp noJob).remaining_time),
                    completed := true },
                currentTime := nt0 }) <
          countIncomplete s.jobs * (2 * s.events.length + 3) +
            (2 * (s.events.length - s.eventIndex) + 1 - pendingBit s)
        omega
      · -- the job does not complete: the advance landed on the event
        have hrem2pos := not_le.mp hfin
        have hminlt : min (nt0 - s.currentTime)
            ((s.jobs.getD hp noJob).remaining_time) <
            (s.jobs.getD hp noJob).remaining_time := by
          linarith
        have hexec_lt : nt0 - s.currentTime <
            (s.jobs.getD hp noJob).remaining_time := by
          rcases min_cases (nt0 - s.currentTime)
            ((s.jobs.getD hp noJob).remaining_time) with ⟨he2, _⟩ | ⟨he2, _⟩
          · rw [he2] at hminlt
            exact hminlt
          · exfalso
            rw [he2] at hminlt
            exact lt_irrefl _ hminlt
        have hnt_lt : nt0 <
            s.currentTime + (s.jobs.getD hp noJob).remaining_time := by
          linarith
        have hnt0e : nt0 = e.time := by
          rw [hnt0] at hnt_lt ⊢
          rcases min_cases e.time
            (s.currentTime + (s.jobs.getD hp noJob).remaining_time) with
            ⟨he2, _⟩ | ⟨he2, _⟩
          · exact he2
          · exfalso
            rw [he2] at hnt_lt
            exact lt_irrefl _ hnt_lt
        have hexecEq : execPhase E hp nt0 =
            { s with
              eventIndex := s.eventIndex + k,
              counts := preemptCounts s.jobs s.runningJob hp s.counts,
              runningJob := some hp,
              jobs := s.jobs.set hp
                { s.jobs.getD hp noJob with
                  remaining_time := (s.jobs.getD hp noJob).remaining_time -
                    min (nt0 - s.currentTime)
                      ((s.jobs.getD hp noJob).remaining_time) } } := by
          unfold execPhase
          rw [if_pos ?hcnd, if_neg ?hfin2]
          case hcnd =>
            refine ⟨?_, hremE⟩
            show 0 < nt0 - s.currentTime
            linarith
          case hfin2 =>
            exact hfin
          rfl
        rw [hexecEq] at h3
        rw [← h3]
        have hcnt : countIncomplete (s.jobs.set hp
            { s.jobs.getD hp noJob with
              remaining_time := (s.jobs.getD hp noJob).remaining_time -
                min (nt0 - s.currentTime)
                  ((s.jobs.getD hp noJob).remaining_time) }) =
            countIncomplete s.jobs :=
          countIncomplete_set_eq s.jobs hp _ rfl
        have hpb2 : pendingBit
            { s with
              eventIndex := s.eventIndex + k,
              counts := preemptCounts s.jobs s.runningJob hp s.counts,
              runningJob := some hp,
              jobs := s.jobs.set hp
                { s.jobs.getD hp noJob with
                  remaining_time := (s.jobs.getD hp noJob).remaining_time -
                    min (nt0 - s.currentTime)
                      ((s.jobs.getD hp noJob).remaining_time) },
              currentTime := nt0 } = 1 := by
          unfold pendingBit
          show (match s.events.get? (s.eventIndex + k) with
            | some e2 => if e2.time ≤ nt0 + eps then 1 else 0
            | none => 0) = 1
          rw [hget]
          show (if e.time ≤ nt0 + eps then 1 else 0) = 1
          rw [if_pos (by rw [hnt0e]; exact le_add_of_nonneg_right eps_pos.le)]
        show countIncomplete (s.jobs.set hp
            { s.jobs.getD hp noJob with
              remaining_time := (s.jobs.getD hp noJob).remaining_time -
                min (nt0 - s.currentTime)
                  ((s.jobs.getD hp noJob).remaining_time) }) *
            (2 * s.events.length + 3) +
            (2 * (s.events.length - (s.eventIndex + k)) + 1 -
              pendingBit { s with
                eventIndex := s.eventIndex + k,
                counts := preemptCounts s.jobs s.runningJob hp s.counts,
                runningJob := some hp,
                jobs := s.jobs.set hp
                  { s.jobs.getD hp noJob with
                    remaining_time := (s.jobs.getD hp noJob).remaining_time -
                      min (nt0 - s.currentTime)
                        ((s.jobs.getD hp noJob).remaining_time) },
                currentTime := nt0 }) <
          countIncomplete s.jobs * (2 * s.events.length + 3) +
            (2 * (s.events.length - s.eventIndex) + 1 - pendingBit s)
        rw [hcnt, hpb2]
        refine Nat.add_lt_add_left ?_ _
        omega

/-- Any continuing iteration of the simulation loop strictly
decreases the measure `mu`. -/
theorem step_cont_mu (s s2 : SimState) (h : step s = .cont s2) : mu s2 < mu s := by
  unfold step at h
  by_cases hcond : s.eventIndex < s.events.length ∨ s.runningJob ≠ none
  · rw [if_pos hcond] at h
    cases hc : consumeList s.jobs s.currentTime (s.events.drop s.eventIndex) with
    | none =>
      rw [hc] at h
      have h2 : (StepRes.ret (false, []) s.counts) = .cont s2 := h
      exact absurd h2 (by simp)
    | some k =>
      rw [hc] at h
      cases hs : selectHP s.jobs s.currentTime with
      | none =>
        rw [hs] at h
        have h2 : idlePhase { s with eventIndex := s.eventIndex + k } = .cont s2 := h
        exact idlePhase_mu s k s2 hc h2
      | some hp =>
        rw [hs] at h
        have h2 : readyPhase { s with eventIndex := s.eventIndex + k } hp =
            .cont s2 := h
        exact readyPhase_mu s k hp s2 hc hs h2
  · rw [if_neg hcond] at h
    exact absurd h (by simp)

/-- With fuel exceeding the measure, the loop iteration terminates
with a result. -/
theorem run_isSome : ∀ (n : ℕ) (s : SimState), mu s < n →
    ∃ r, run n s = some r := by
  intro n
  induction n with
  | zero => intro s h; omega
  | succ m ih =>
    intro s h
    cases hst : step s with
    | ret v c =>
      refine ⟨(v, c), ?_⟩
      unfold run
      rw [hst]
    | brk s3 =>
      refine ⟨(finishCheck s3.jobs s3.counts, s3.counts), ?_⟩
      unfold run
      rw [hst]
    | cont s3 =>
      have hlt := step_cont_mu s s3 hst
      obtain ⟨r, hr⟩ := ih s3 (by omega)
      refine ⟨r, ?_⟩
      unfold run
      rw [hst]
      exact hr

/-! ### Congruence with respect to the mutable counter field -/

theorem coreEq_refl (t : Task) : coreEq t t := ⟨rfl, rfl, rfl, rfl⟩

theorem forall₂_coreEq_refl : ∀ ts : List Task, List.Forall₂ coreEq ts ts
  | [] => .nil
  | t :: ts => .cons (coreEq_refl t) (forall₂_coreEq_refl ts)

theorem hyperFold_coreEq : ∀ (l l' : List Task), List.Forall₂ coreEq l l' →
    ∀ h : ℚ, hyperFold h l = hyperFold h l' := by
  intro l l' hf
  induction hf with
  | nil => intro h; rfl
  | @cons t t' l1 l2 hco htail ih =>
    intro h
    show (match lcm h t.period with
      | .err e => HRes.err e
      | .ok h2 => hyperFold h2 l1) =
      (match lcm h t'.period with
      | .err e => HRes.err e
      | .ok h2 => hyperFold h2 l2)
    rw [hco.2.1]
    cases lcm h t'.period with
    | err e => rfl
    | ok h2 => exact ih h2

theorem calculate_hyperperiod_coreEq (ts ts' : List Task)
    (h : List.Forall₂ coreEq ts ts') :
    calculate_hyperperiod ts = calculate_hyperperiod ts' := by
  cases h with
  | nil => rfl
  | @cons t t' l l' hco htail =>
    show hyperFold t.period l = hyperFold t'.period l'
    rw [hco.2.1]
    exact hyperFold_coreEq l l' htail _

theorem genJobsAux_coreEq (t t' : Task) (hco : coreEq t t') (i : ℕ) (H : ℚ) :
    ∀ fuel r jid, genJobsAux t i H fuel r jid = genJobsAux t' i H fuel r jid := by
  obtain ⟨he, hP, hD, hid⟩ := hco
  intro fuel
  induction fuel with
  | zero => intro r jid; rfl
  | succ m ih =>
    intro r jid
    show (if r < H then
        match genJobsAux t i H m (r + t.period) (jid + 1) with
        | none => none
        | some rest =>
          some ({ release_time := r, taskIdx := i, tid := t.task_id,
                  absolute_deadline := r + t.deadline,
                  remaining_time := t.execution_time,
                  job_id := jid, completed := false } :: rest)
      else some []) =
      (if r < H then
        match genJobsAux t' i H m (r + t'.period) (jid + 1) with
        | none => none
        | some rest =>
          some ({ release_time := r, taskIdx := i, tid := t'.task_id,
                  absolute_deadline := r + t'.deadline,
                  remaining_time := t'.execution_time,
                  job_id := jid, completed := false } :: rest)
      else some [])
    by_cases hr : r < H
    · simp only [if_pos hr]
      rw [ih (r + t.period) (jid + 1), hP, he, hD, hid]
    · simp only [if_neg hr]

theorem genJobsTask_coreEq (t t' : Task) (hco : coreEq t t') (i : ℕ) (H : ℚ) :
    genJobsTask t i H = genJobsTask t' i H := by
  unfold genJobsTask genFuel
  rw [hco.2.1, genJobsAux_coreEq t t' hco]

theorem genJobsFrom_coreEq : ∀ (l l' : List Task), List.Forall₂ coreEq l l' →
    ∀ (i : ℕ) (H : ℚ), genJobsFrom l i H = genJobsFrom l' i H := by
  intro l l' hf
  induction hf with
  | nil => intro i H; rfl
  | @cons t t' l1 l2 hco htail ih =>
    intro i H
    show (match genJobsTask t i H with
      | none => none
      | some a =>
        match genJobsFrom l1 (i + 1) H with
        | none => none
        | some b => some (a ++ b)) =
      (match genJobsTask t' i H with
      | none => none
      | some a =>
        match genJobsFrom l2 (i + 1) H with
        | none => none
        | some b => some (a ++ b))
    rw [genJobsTask_coreEq t t' hco, ih (i + 1) H]

/-- Case analysis helper: the first component of the result returned
after the simulation loop does not depend on the mutated task lists
carried in the second component. -/
theorem fst_run_match (o : Option ((Bool × List ℕ) × List ℕ))
    (A1 A2 : List Task) (W1 W2 : List ℕ → List Task) :
    (match o with
      | none => (SimResult.div, A1)
      | some (v, cnts) => (SimResult.ok v.1 v.2, W1 cnts)).1 =
    (match o with
      | none => (SimResult.div, A2)
      | some (v, cnts) => (SimResult.ok v.1 v.2, W2 cnts)).1 := by
  cases o with
  | none => rfl
  | some r =>
    obtain ⟨v, cnts⟩ := r
    rfl

/-- Case analysis helper for the second (task list) component of the
result of the simulation loop. -/
theorem run_match_snd_cases (o : Option ((Bool × List ℕ) × List ℕ))
    (A : List Task) (W : List ℕ → List Task) (P : List Task → Prop)
    (hA : P A) (hW : ∀ cnts, P (W cnts)) :
    P ((match o with
      | none => (SimResult.div, A)
      | some (v, cnts) => (SimResult.ok v.1 v.2, W cnts)).2) := by
  cases o with
  | none => exact hA
  | some r =>
    obtain ⟨v, cnts⟩ := r
    exact hW cnts

/-- The simulation result depends only on the core task data, not on
the incoming `preemption_count` values: counters are reset at the
start of every run. -/
theorem simulate_coreEq (ts ts' : List Task) (h : List.Forall₂ coreEq ts ts') :
    simulate ts = simulate ts' := by
  cases h with
  | nil => rfl
  | @cons t t' l l' hco htail =>
    have hH := calculate_hyperperiod_coreEq (t :: l) (t' :: l')
      (.cons hco htail)
    have hG := genJobsFrom_coreEq (t :: l) (t' :: l') (.cons hco htail)
    have hlen : (t :: l).length = (t' :: l').length := by
      simp [htail.length_eq]
    have hne1 : (t :: l) ≠ ([] : List Task) := by simp
    have hne2 : (t' :: l') ≠ ([] : List Task) := by simp
    unfold simulate simulate_dm_scheduling
    rw [if_neg hne1, if_neg hne2, hH]
    simp only [hG, hlen]
    cases hHval : calculate_hyperperiod (t' :: l') with
    | err e => cases e <;> rfl
    | ok H =>
      by_cases h6 : 1000000 < H
      · simp only [if_pos h6]
      · simp only [if_neg h6]
        cases hGval : genJobsFrom (t' :: l') 0 H with
        | none => rfl
        | some rawJobs => exact fst_run_match _ _ _ _ _

/-- The task list returned by a simulation call is core-equal to the
input: only the counter field is mutated. -/
theorem simulate_tasksAfter_coreEq (ts : List Task) :
    List.Forall₂ coreEq ((simulate_dm_scheduling ts).2) ts := by
  have hreset : ∀ l : List Task, List.Forall₂ coreEq (resetTasks l) l := by
    intro l
    induction l with
    | nil => exact .nil
    | cons t l ih => exact .cons ⟨rfl, rfl, rfl, rfl⟩ ih
  have hwrite : ∀ (l : List Task) (n : ℕ) (cnts : List ℕ),
      List.Forall₂ coreEq
        ((List.enumFrom n l).map
          (fun p => { p.2 with preemption_count := cnts.getD p.1 0 })) l := by
    intro l
    induction l with
    | nil => intro n cnts; exact .nil
    | cons t l ih =>
      intro n cnts
      exact .cons ⟨rfl, rfl, rfl, rfl⟩ (ih (n + 1) cnts)
  unfold simulate_dm_scheduling
  by_cases hne : ts = ([] : List Task)
  · rw [if_pos hne]
    exact forall₂_coreEq_refl ts
  · rw [if_neg hne]
    cases calculate_hyperperiod ts with
    | err e => cases e <;> exact forall₂_coreEq_refl ts
    | ok H =>
      by_cases h6 : 1000000 < H
      · simp only [if_pos h6]
        exact forall₂_coreEq_refl ts
      · simp only [if_neg h6]
        cases genJobsFrom ts 0 H with
        | none => exact hreset ts
        | some rawJobs =>
          exact run_match_snd_cases _ (resetTasks ts) (writeCounts ts)
            (fun l2 => List.Forall₂ coreEq l2 ts) (hreset ts)
            (fun cnts => hwrite ts 0 cnts)

/-! ### The claims -/

/-- Claim C1: at every scheduling step of the simulation, among the
ready, incomplete jobs (release within tolerance of the current time,
positive remaining time, not completed), the job selected to run has
the smallest absolute deadline, with ties broken by the lower owning
task id: the selected index is ready and its
`(absolute_deadline, task_id)` key is lexicographically minimal over
the whole ready set. -/
theorem C1_priority_selection (jobs : List Job) (cur : ℚ) (hp : ℕ)
    (h : selectHP jobs cur = some hp) :
    hp ∈ readyIdxs jobs cur ∧
      ∀ j ∈ readyIdxs jobs cur,
        (jobs.getD hp noJob).absolute_deadline <
            (jobs.getD j noJob).absolute_deadline ∨
          ((jobs.getD hp noJob).absolute_deadline =
              (jobs.getD j noJob).absolute_deadline ∧
            (jobs.getD hp noJob).tid ≤ (jobs.getD j noJob).tid) := by
  obtain ⟨h1, h2⟩ := selectHP_spec jobs cur hp h
  refine ⟨h1, fun j hj => ?_⟩
  have h3 := h2 j hj
  simpa [hpLe, decide_eq_true_eq] using h3

/-- Witness for C1 at a concrete two-job state: the job with the later
deadline (index 0) is passed over in favor of index 1. -/
theorem C1_priority_selection_witness :
    1 ∈ readyIdxs [⟨0, 0, 0, 5, 2, 0, false⟩, ⟨0, 1, 1, 3, 2, 0, false⟩] 0 ∧
      ∀ j ∈ readyIdxs [⟨0, 0, 0, 5, 2, 0, false⟩, ⟨0, 1, 1, 3, 2, 0, false⟩] 0,
        (([⟨0, 0, 0, 5, 2, 0, false⟩,
            ⟨0, 1, 1, 3, 2, 0, false⟩] : List Job).getD 1 noJob).absolute_deadline <
            (([⟨0, 0, 0, 5, 2, 0, false⟩,
              ⟨0, 1, 1, 3, 2, 0, false⟩] : List Job).getD j noJob).absolute_deadline ∨
          ((([⟨0, 0, 0, 5, 2, 0, false⟩,
              ⟨0, 1, 1, 3, 2, 0, false⟩] : List Job).getD 1 noJob).absolute_deadline =
              (([⟨0, 0, 0, 5, 2, 0, false⟩,
                ⟨0, 1, 1, 3, 2, 0, false⟩] : List Job).getD j noJob).absolute_deadline ∧
            (([⟨0, 0, 0, 5, 2, 0, false⟩,
              ⟨0, 1, 1, 3, 2, 0, false⟩] : List Job).getD 1 noJob).tid ≤
              (([⟨0, 0, 0, 5, 2, 0, false⟩,
                ⟨0, 1, 1, 3, 2, 0, false⟩] : List Job).getD j noJob).tid) :=
  C1_priority_selection
    [⟨0, 0, 0, 5, 2, 0, false⟩, ⟨0, 1, 1, 3, 2, 0, false⟩] 0 1
    (by with_unfolding_all decide)

/-- Claim C2 (code bug): on the valid task set with two tasks of
period `0.0001`, `Fraction(period).limit_denominator(1000)` collapses
both periods to `0`, `gcd` returns `0.0`, and `lcm`'s division raises
`ZeroDivisionError` — the call raises instead of returning
`schedulable = false`, contradicting the spec's "never as an
exception" and "arithmetic never divides by zero". -/
theorem C2_exception_on_valid_input :
    validTask ⟨1, 1/10000, 1, 0, 0⟩ ∧ validTask ⟨1, 1/10000, 1, 1, 0⟩ ∧
      gcd (1/10000) (1/10000) = some 0 ∧
      simulate [⟨1, 1/10000, 1, 0, 0⟩, ⟨1, 1/10000, 1, 1, 0⟩] = .exn := by
  refine ⟨⟨by norm_num, by norm_num, by norm_num⟩,
    ⟨by norm_num, by norm_num, by norm_num⟩, ?_, ?_⟩
  · with_unfolding_all decide
  · with_unfolding_all decide

/-- Claim C3: in every scheduling step, the preemption counter of the
task owning the previously running job is incremented by exactly one
exactly when the newly selected job differs from it (by job identity)
and it is still incomplete; when there was no running job or the
conditions fail, the counters are unchanged; counters live in the
per-task `counts` list, indexed by the owning task; and a job that
completes naturally clears the running slot, so it is never counted
as preempted at the next selection. -/
theorem C3_preemption_accounting (jobs : List Job) (running : Option ℕ)
    (hp : ℕ) (counts : List ℕ) :
    (preemptCounts jobs none hp counts = counts) ∧
    (∀ r, running = some r → r ≠ hp →
      eps < (jobs.getD r noJob).remaining_time →
      preemptCounts jobs running hp counts =
        counts.set (jobs.getD r noJob).taskIdx
          (counts.getD (jobs.getD r noJob).taskIdx 0 + 1)) ∧
    (∀ r, running = some r →
      (r = hp ∨ (jobs.getD r noJob).remaining_time ≤ eps) →
      preemptCounts jobs running hp counts = counts) ∧
    (∀ (s : SimState) (nt : ℚ), 0 < nt - s.currentTime →
      eps < (s.jobs.getD hp noJob).remaining_time →
      (s.jobs.getD hp noJob).remaining_time -
          min (nt - s.currentTime) ((s.jobs.getD hp noJob).remaining_time) ≤ eps →
      (execPhase s hp nt).runningJob = none) := by
  refine ⟨rfl, ?_, ?_, ?_⟩
  · intro r hr hne hrem
    subst hr
    show (if r ≠ hp ∧ eps < (jobs.getD r noJob).remaining_time then
        counts.set (jobs.getD r noJob).taskIdx
          (counts.getD (jobs.getD r noJob).taskIdx 0 + 1)
      else counts) =
      counts.set (jobs.getD r noJob).taskIdx
        (counts.getD (jobs.getD r noJob).taskIdx 0 + 1)
    rw [if_pos ⟨hne, hrem⟩]
  · intro r hr hd
    subst hr
    show (if r ≠ hp ∧ eps < (jobs.getD r noJob).remaining_time then
        counts.set (jobs.getD r noJob).taskIdx
          (counts.getD (jobs.getD r noJob).taskIdx 0 + 1)
      else counts) = counts
    rw [if_neg ?_]
    rintro ⟨hne, hlt⟩
    rcases hd with he | hle
    · exact hne he
    · exact absurd hlt (not_lt.mpr hle)
  · intro s nt h1 h2 h3
    unfold execPhase
    rw [if_pos ⟨h1, h2⟩, if_pos h3]

/-- Witness for C3 at a concrete state: job 0 (of task 0) is running
with positive remaining time when job 1 is selected, so task 0's
counter is bumped from 0 to 1. -/
theorem C3_preemption_accounting_witness :
    preemptCounts [⟨0, 0, 0, 5, 2, 0, false⟩, ⟨0, 1, 1, 3, 2, 0, false⟩]
        (some 0) 1 [0, 0] =
      ([0, 0] : List ℕ).set
        ((([⟨0, 0, 0, 5, 2, 0, false⟩,
          ⟨0, 1, 1, 3, 2, 0, false⟩] : List Job).getD 0 noJob).taskIdx)
        (([0, 0] : List ℕ).getD
          ((([⟨0, 0, 0, 5, 2, 0, false⟩,
            ⟨0, 1, 1, 3, 2, 0, false⟩] : List Job).getD 0 noJob).taskIdx) 0 + 1) :=
  (C3_preemption_accounting
      [⟨0, 0, 0, 5, 2, 0, false⟩, ⟨0, 1, 1, 3, 2, 0, false⟩]
      (some 0) 1 [0, 0]).2.1 0 rfl (by norm_num)
    (by with_unfolding_all decide)

/-- Claim C4, as stated, is false: the number of generated jobs need
not equal `floor (H / P)`, because the computed hyperperiod need not
be a common multiple of the periods.  With two tasks of period
`1/1500`, `limit_denominator(1000)` turns both periods into `1/1000`,
the computed hyperperiod is `1/2250 < 1/1500`, and the task gets `1`
job while `floor (H / P) = floor (2/3) = 0`. -/
theorem C4_counterexample :
    calculate_hyperperiod [⟨1, 1/1500, 1, 0, 0⟩, ⟨1, 1/1500, 1, 1, 0⟩] =
      .ok (1/2250) ∧
    ((genJobsTask ⟨1, 1/1500, 1, 0, 0⟩ 0 (1/2250)).getD []).length = 1 ∧
    (⌊(1/2250 : ℚ) / (1/1500 : ℚ)⌋ : ℤ) = 0 := by
  refine ⟨?_, ?_, ?_⟩ <;> (set_option maxRecDepth 4000 in with_unfolding_all decide)

/-- Claim C4 (amended): for every task with positive period, the
generated job list holds exactly one job per release time
`0, P, 2·P, …` strictly below `H` — the `n`-th with
`absolute_deadline = release + deadline`, `remaining_time =
execution_time` and sequence number `n` (see `mkJob`) — and the number
of jobs equals `floor (H / P)` provided the hyperperiod `H` is a
(natural) multiple of the period, which holds for the computed
hyperperiod whenever no period is distorted by
`limit_denominator(1000)`; the full job list is sorted ascending by
`(release_time, absolute_deadline)`. -/
theorem C4_amended :
    (∀ (t : Task) (tIdx : ℕ) (H : ℚ), 0 < t.period →
      genJobsTask t tIdx H =
        some ((List.range (⌈H / t.period⌉).toNat).map (mkJob t tIdx))) ∧
    (∀ (t : Task) (tIdx : ℕ) (H : ℚ) (k : ℕ), 0 < t.period →
      H = k * t.period →
      ∃ l, genJobsTask t tIdx H = some l ∧ l.length = k ∧
        (⌊H / t.period⌋ : ℤ) = k) ∧
    (∀ l : List Job, (l.mergeSort jobLe).Pairwise (fun a b =>
      a.release_time < b.release_time ∨
        (a.release_time = b.release_time ∧
          a.absolute_deadline ≤ b.absolute_deadline))) := by
  refine ⟨fun t tIdx H hP => genJobsTask_eq t tIdx H hP, ?_, ?_⟩
  · intro t tIdx H k hP hH
    obtain ⟨hlen, hfl⟩ := genJobsTask_count t tIdx H hP k hH
    exact ⟨_, genJobsTask_eq t tIdx H hP, hlen, hfl⟩
  · intro l
    have h := sortJobs_sorted l
    exact h.imp (fun hab => by
      simpa [jobLe, decide_eq_true_eq] using hab)

/-- Witness for the amended C4 at a single task with period `4` over
hyperperiod `8`: two jobs, released at `0` and `4`. -/
theorem C4_amended_witness :
    genJobsTask ⟨1, 4, 4, 0, 0⟩ 0 8 =
      some ((List.range (⌈(8 : ℚ) / (⟨1, 4, 4, 0, 0⟩ : Task).period⌉).toNat).map
        (mkJob ⟨1, 4, 4, 0, 0⟩ 0)) :=
  C4_amended.1 ⟨1, 4, 4, 0, 0⟩ 0 8 (by norm_num)

/-- Claim C5: the hyperperiod is the pairwise-folded `lcm` of the
periods: `{4, 6}` gives `12`, a singleton gives its own period, the
empty set gives `0`, and the simulator reports an empty task set as
schedulable with no preemptions. -/
theorem C5_hyperperiod_cases :
    (∀ t1 t2 : Task, t1.period = 4 → t2.period = 6 →
      calculate_hyperperiod [t1, t2] = .ok 12) ∧
    (∀ t : Task, calculate_hyperperiod [t] = .ok t.period) ∧
    calculate_hyperperiod [] = .ok 0 ∧
    simulate [] = .ok true [] := by
  refine ⟨?_, fun t => rfl, rfl, rfl⟩
  intro t1 t2 h1 h2
  show hyperFold t1.period [t2] = .ok 12
  rw [h1]
  show (match lcm 4 t2.period with
    | .err e => HRes.err e
    | .ok h2 => hyperFold h2 []) = .ok 12
  rw [h2]
  with_unfolding_all decide

/-- Witness for C5 at two concrete tasks with periods `4` and `6`. -/
theorem C5_hyperperiod_cases_witness :
    calculate_hyperperiod [⟨1, 4, 4, 0, 0⟩, ⟨1, 6, 6, 1, 0⟩] = .ok 12 :=
  C5_hyperperiod_cases.1 ⟨1, 4, 4, 0, 0⟩ ⟨1, 6, 6, 1, 0⟩ rfl rfl

/-- Claim C6, as stated, is false: `gcd` does not operate on exact
rational representations of its inputs.  For the user-supplied decimal
period `0.0001 = 1/10000`, `limit_denominator(1000)` collapses the
value to `0`, `gcd` returns `0` for two positive inputs, and `lcm`
raises `ZeroDivisionError` — total precision loss rather than none. -/
theorem C6_counterexample :
    (0 : ℚ) < 1/10000 ∧ gcd (1/10000) (1/10000) = some 0 ∧
      lcm (1/10000) (1/10000) = .err .exn := by
  refine ⟨by norm_num, ?_, ?_⟩ <;> with_unfolding_all decide

/-- Claim C6 (amended): for positive inputs whose denominators do not
exceed the `limit_denominator` bound `1000`, the rational
representations are exact, Euclid's algorithm terminates with
remainder exactly zero on a positive common divisor `g` of the two
inputs themselves, `lcm a b` returns exactly `|a * b| / g` — a common
multiple of both — and the folded hyperperiod is an exact positive
common multiple of all periods. -/
theorem C6_amended :
    (∀ a b : ℚ, 0 < a → 0 < b → a.den ≤ 1000 → b.den ≤ 1000 →
      ∃ g, gcd a b = some g ∧ 0 < g ∧ QDvd g a ∧ QDvd g b ∧
        lcm a b = .ok (|a * b| / g) ∧ QDvd a (|a * b| / g) ∧
          QDvd b (|a * b| / g)) ∧
    (∀ (t : Task) (ts : List Task),
      (∀ u ∈ t :: ts, 0 < u.period ∧ u.period.den ≤ 1000) →
      ∃ h, calculate_hyperperiod (t :: ts) = .ok h ∧ 0 < h ∧
        ∀ u ∈ t :: ts, QDvd u.period h) := by
  constructor
  · intro a b ha hb hda hdb
    obtain ⟨g, hg, hgp, hdva, hdvb, hlcm, _, hma, hmb, _⟩ :=
      lcm_spec a b ha hb hda hdb
    exact ⟨g, hg, hgp, hdva, hdvb, hlcm, hma, hmb⟩
  · intro t ts hts
    have ht := hts t (by simp)
    obtain ⟨h2, hh2, hp2, _, hdvd2, hall2⟩ :=
      hyperFold_spec ts t.period ht.1 ht.2
        (fun u hu => hts u (by simp [hu]))
    refine ⟨h2, hh2, hp2, ?_⟩
    intro u hu
    rcases List.mem_cons.mp hu with hut | hu2
    · rw [hut]
      exact hdvd2
    · exact hall2 u hu2

/-- Witness for the amended C6 at the integer periods `4` and `6`. -/
theorem C6_amended_witness :
    ∃ g, gcd 4 6 = some g ∧ 0 < g ∧ QDvd g 4 ∧ QDvd g 6 ∧
      lcm 4 6 = .ok (|(4 : ℚ) * 6| / g) ∧ QDvd 4 (|(4 : ℚ) * 6| / g) ∧
        QDvd 6 (|(4 : ℚ) * 6| / g) :=
  C6_amended.1 4 6 (by norm_num) (by norm_num) (by norm_num) (by norm_num)

/-- Claim C7: whenever the computed hyperperiod exceeds `1000000`,
the simulator returns `(false, [])` straight from the ceiling guard —
before job generation and before the event loop. -/
theorem C7_ceiling_guard (ts : List Task) (H : ℚ)
    (hH : calculate_hyperperiod ts = .ok H) (hgt : 1000000 < H) :
    simulate ts = .ok false [] := by
  cases ts with
  | nil =>
    have h0 : (HRes.ok (0 : ℚ)) = .ok H := hH
    have : (0 : ℚ) = H := by injection h0
    rw [← this] at hgt
    norm_num at hgt
  | cons t l =>
    unfold simulate simulate_dm_scheduling
    rw [if_neg (by simp : (t :: l) ≠ ([] : List Task)), hH]
    show ((if 1000000 < H then (SimResult.ok false [], t :: l)
      else
        match genJobsFrom (t :: l) 0 H with
        | none => (SimResult.div, resetTasks (t :: l))
        | some rawJobs =>
          match run (mu (SimState.mk H (rawJobs.mergeSort jobLe)
                (mkEvents (rawJobs.mergeSort jobLe)) 0 0 none
                (List.replicate (t :: l).length 0)) + 1)
              (SimState.mk H (rawJobs.mergeSort jobLe)
                (mkEvents (rawJobs.mergeSort jobLe)) 0 0 none
                (List.replicate (t :: l).length 0)) with
          | none => (SimResult.div, resetTasks (t :: l))
          | some (v, cnts) =>
            (SimResult.ok v.1 v.2, writeCounts (t :: l) cnts)) :
        SimResult × List Task).1 = SimResult.ok false []
    rw [if_pos hgt]

/-- Witness for C7: a single task of period `2000000`. -/
theorem C7_ceiling_guard_witness :
    simulate [⟨1, 2000000, 1, 0, 0⟩] = .ok false [] :=
  C7_ceiling_guard [⟨1, 2000000, 1, 0, 0⟩] 2000000 rfl (by norm_num)

/-- Claim C8: for every valid task set (all execution times, periods
and deadlines positive) the simulation terminates: the call never
diverges.  Every internal loop — the rational Euclid loop, the
release-generation loop, and the event-driven simulation loop, each
iteration of which strictly decreases the measure `mu` — finishes
within the supplied fuel. -/
theorem C8_termination (ts : List Task) (hv : ∀ t ∈ ts, validTask t) :
    simulate ts ≠ .div := by
  cases ts with
  | nil =>
    intro hc
    exact SimResult.noConfusion (show SimResult.ok true [] = .div from hc)
  | cons t l =>
    have hper0 : ∀ u ∈ t :: l, (0 : ℚ) ≤ u.period :=
      fun u hu => ((hv u hu).2.1).le
    have hdiv := calculate_hyperperiod_no_div (t :: l) hper0
    unfold simulate simulate_dm_scheduling
    rw [if_neg (by simp : (t :: l) ≠ ([] : List Task))]
    cases hH : calculate_hyperperiod (t :: l) with
    | err e =>
      cases e with
      | exn =>
        intro hc
        exact SimResult.noConfusion (show SimResult.exn = .div from hc)
      | div => exact absurd hH hdiv
    | ok H =>
      show ((if 1000000 < H then (SimResult.ok false [], t :: l)
        else
          match genJobsFrom (t :: l) 0 H with
          | none => (SimResult.div, resetTasks (t :: l))
          | some rawJobs =>
            match run (mu (SimState.mk H (rawJobs.mergeSort jobLe)
                  (mkEvents (rawJobs.mergeSort jobLe)) 0 0 none
                  (List.replicate (t :: l).length 0)) + 1)
                (SimState.mk H (rawJobs.mergeSort jobLe)
                  (mkEvents (rawJobs.mergeSort jobLe)) 0 0 none
                  (List.replicate (t :: l).length 0)) with
            | none => (SimResult.div, resetTasks (t :: l))
            | some (v, cnts) =>
              (SimResult.ok v.1 v.2, writeCounts (t :: l) cnts)) :
          SimResult × List Task).1 ≠ SimResult.div
      by_cases h6 : 1000000 < H
      · rw [if_pos h6]
        intro hc
        exact SimResult.noConfusion (show SimResult.ok false [] = .div from hc)
      · rw [if_neg h6]
        obtain ⟨jl, hjl⟩ :=
          genJobsFrom_isSome (t :: l) 0 H (fun u hu => (hv u hu).2.1)
        rw [hjl]
        obtain ⟨r, hr⟩ := run_isSome
          (mu (SimState.mk H (jl.mergeSort jobLe)
            (mkEvents (jl.mergeSort jobLe)) 0 0 none
            (List.replicate (t :: l).length 0)) + 1)
          (SimState.mk H (jl.mergeSort jobLe)
            (mkEvents (jl.mergeSort jobLe)) 0 0 none
            (List.replicate (t :: l).length 0))
          (by omega)
        have hfin : ((match run
              (mu (SimState.mk H (jl.mergeSort jobLe)
                (mkEvents (jl.mergeSort jobLe)) 0 0 none
                (List.replicate (t :: l).length 0)) + 1)
              (SimState.mk H (jl.mergeSort jobLe)
                (mkEvents (jl.mergeSort jobLe)) 0 0 none
                (List.replicate (t :: l).length 0)) with
          | none => (SimResult.div, resetTasks (t :: l))
          | some (v, cnts) =>
            (SimResult.ok v.1 v.2, writeCounts (t :: l) cnts)) :
            SimResult × List Task).1 ≠ SimResult.div := by
          rw [hr]
          obtain ⟨v, cnts⟩ := r
          intro hc
          exact SimResult.noConfusion (show SimResult.ok v.1 v.2 = .div from hc)
        exact hfin

/-- Witness for C8: a valid single-task set. -/
theorem C8_termination_witness : simulate [⟨1, 4, 4, 0, 0⟩] ≠ .div :=
  C8_termination [⟨1, 4, 4, 0, 0⟩]
    (by
      intro u hu
      rw [List.mem_singleton] at hu
      subst hu
      exact ⟨by norm_num, by norm_num, by norm_num⟩)

/-- Claim C9: the result of `simulate` depends only on the task set's
core values — calling it on two independently-constructed, value-equal
task sets (equal up to the mutable counter field) gives identical
results, because the per-task counters are reset at the start of every
run — and running it again on the task list as mutated by a first call
reproduces the first result. -/
theorem C9_idempotence :
    (∀ ts ts' : List Task, List.Forall₂ coreEq ts ts' →
      simulate ts = simulate ts') ∧
    (∀ ts : List Task,
      simulate ((simulate_dm_scheduling ts).2) = simulate ts) := by
  refine ⟨simulate_coreEq, ?_⟩
  intro ts
  exact simulate_coreEq _ ts (simulate_tasksAfter_coreEq ts)

/-- Witness for C9: two value-equal copies of a task set with
different incoming counter values give the same verdict. -/
theorem C9_idempotence_witness :
    simulate [⟨1, 4, 4, 0, 7⟩] = simulate [⟨1, 4, 4, 0, 0⟩] :=
  C9_idempotence.1 [⟨1, 4, 4, 0, 7⟩] [⟨1, 4, 4, 0, 0⟩]
    (.cons ⟨rfl, rfl, rfl, rfl⟩ .nil)

/-- Claim C10: after the event loop, the final check returns
`(false, [])` exactly when some generated job still has remaining time
above the tolerance, and `(true, counts)` otherwise; in particular a
single task with execution time `5`, period `4` and deadline `10` is
reported non-schedulable: its only job's deadline (`10`) lies beyond
the hyperperiod (`4`), so the deadline is never reached inside the
simulated window, yet the unfinished job makes the verdict `false`. -/
theorem C10_final_check :
    (∀ (jobs : List Job) (counts : List ℕ),
      (∃ j ∈ jobs, eps < j.remaining_time) →
      finishCheck jobs counts = (false, [])) ∧
    (∀ (jobs : List Job) (counts : List ℕ),
      (∀ j ∈ jobs, j.remaining_time ≤ eps) →
      finishCheck jobs counts = (true, counts)) ∧
    calculate_hyperperiod [⟨5, 4, 10, 0, 0⟩] = .ok 4 ∧
    ((4 : ℚ) < 0 + 10) ∧
    simulate [⟨5, 4, 10, 0, 0⟩] = .ok false [] := by
  refine ⟨?_, ?_, ?_, by norm_num, ?_⟩
  · intro jobs counts hex
    unfold finishCheck
    rw [if_pos ?_]
    rw [List.any_eq_true]
    obtain ⟨j, hj, hlt⟩ := hex
    exact ⟨j, hj, by simpa using hlt⟩
  · intro jobs counts hall
    unfold finishCheck
    rw [if_neg ?_]
    rw [List.any_eq_true]
    rintro ⟨j, hj, hlt⟩
    have := hall j hj
    rw [decide_eq_true_eq] at hlt
    exact absurd hlt (not_lt.mpr this)
  · with_unfolding_all decide
  · set_option maxRecDepth 4000 in with_unfolding_all decide

/-- Witness for C10's quantified final-check clause at a one-job list
with remaining time `1`. -/
theorem C10_final_check_witness :
    finishCheck [⟨0, 0, 0, 0, 1, 0, false⟩] [0] = (false, []) :=
  C10_final_check.1 [⟨0, 0, 0, 0, 1, 0, false⟩] [0]
    ⟨⟨0, 0, 0, 0, 1, 0, false⟩, by simp, by norm_num [eps]⟩

end DM
